import Mathlib

/-
Verification of the data-normalization and monthly-aggregation pipeline of
src/app.py (water-quality trends dashboard).

Shallow embedding conventions:
- A spreadsheet cell is the tagged union Cell below (missing value, float NaN,
  number, boolean, string), matching the dynamic values the parsers receive.
- Python strings are List Char; only ASCII case folding and ASCII whitespace
  are modelled (the data this pipeline handles is ASCII).
- Python floats are modelled as rationals; IEEE rounding is not modelled
  (every value appearing in a theorem below is exactly representable).
- Python functions that swallow exceptions are modelled as total functions
  returning Option, with each caught-exception path made explicit.
- Calendar dates are civil triples (year, month, day); serial-number
  arithmetic goes through the standard days-from-civil conversion.
-/

/-! ## Cells -/

/-- Dynamic cell value handed to the parsers: None, float NaN, a number
(int or float, modelled as an exact rational), a boolean, or a string. -/
inductive Cell where
  | null : Cell
  | nan : Cell
  | num : ℚ → Cell
  | bool : Bool → Cell
  | str : List Char → Cell
deriving DecidableEq

/-! ## Character and string helpers (ASCII model of the Python built-ins) -/

/-- ASCII whitespace, as stripped by str.strip. -/
def isSpacePy (c : Char) : Bool :=
  c.toNat = 32 || c.toNat = 9 || c.toNat = 10 || c.toNat = 13 ||
    c.toNat = 11 || c.toNat = 12

/-- ASCII lower-casing of one character, as done by str.lower. -/
def toLowerPy (c : Char) : Char :=
  if 65 ≤ c.toNat ∧ c.toNat ≤ 90 then Char.ofNat (c.toNat + 32) else c

/-- str.lower on a whole string. -/
def lowerL (l : List Char) : List Char := l.map toLowerPy

/-- str.strip: drop leading and trailing whitespace. -/
def pyStrip (l : List Char) : List Char :=
  ((l.dropWhile isSpacePy).reverse.dropWhile isSpacePy).reverse

/-- ASCII decimal digit test (regex backslash-d, ASCII model). -/
def isDigitC (c : Char) : Bool := 48 ≤ c.toNat && c.toNat ≤ 57

/-- ASCII word character test (regex backslash-w, ASCII model). -/
def isWordC (c : Char) : Bool :=
  isDigitC c || (65 ≤ c.toNat && c.toNat ≤ 90) ||
    (97 ≤ c.toNat && c.toNat ≤ 122) || c.toNat = 95

/-- Python substring membership: tok in s. -/
def containsSeq (p : List Char) : List Char → Bool
  | [] => p.isEmpty
  | c :: rest => p.isPrefixOf (c :: rest) || containsSeq p rest

/-! ## parse_result_to_float (src/app.py lines 55 to 84) -/

/-- The set _NUM_TXT_ZERO of src/app.py line 55. -/
def numTxtZero : List (List Char) :=
  ["nd".toList, "n/d".toList, "not detected".toList, "bdl".toList,
   "below detection".toList, "na".toList, "n/a".toList]

/-- The non-detect test of src/app.py line 70: the lower-cased stripped string
is in _NUM_TXT_ZERO, or contains the token " nd" or " bdl". -/
def ndCheck (low : List Char) : Bool :=
  decide (low ∈ numTxtZero) || containsSeq " nd".toList low ||
    containsSeq " bdl".toList low

/-- Boundary part of the thousands-separator regex of line 75: the comma must
be followed by exactly three digits at a word boundary. -/
def thouBoundary : List Char → Bool
  | a :: b :: c :: rest =>
    isDigitC a && isDigitC b && isDigitC c &&
      (match rest with
       | [] => true
       | d :: _ => !(isWordC d))
  | _ => false

/-- One pass of re.sub over the string for the pattern of line 75: a comma
preceded by a digit and followed by three digits at a word boundary is
removed.  The lookaround context is always taken from the original string,
so the scan carries the previous original character. -/
def rmThousandsAux (prev : Option Char) : List Char → List Char
  | [] => []
  | c :: rest =>
    if c == ',' &&
        (match prev with
         | some p => isDigitC p
         | none => false) &&
        thouBoundary rest then
      rmThousandsAux (some c) rest
    else c :: rmThousandsAux (some c) rest

/-- re.sub removing thousands commas (src/app.py line 75). -/
def rmThousands (l : List Char) : List Char := rmThousandsAux none l

/-- takeWhile and dropWhile on digits, used to model greedy digit runs. -/
def spanDigits (l : List Char) : List Char × List Char :=
  (l.takeWhile isDigitC, l.dropWhile isDigitC)

/-- Match of the regex sign? digits* dot? digits+ anchored at the head of the
list (regex of src/app.py line 78 at one start position), with the greedy
backtracking of the Python engine resolved: an optional sign, then the longest
digit run, then a fractional part when a dot with at least one digit follows,
otherwise just the integer digits. -/
def numMatchAt (l : List Char) : Option (List Char) :=
  let sr : List Char × List Char :=
    match l with
    | c :: rest => if c == '-' || c == '+' then ([c], rest) else ([], l)
    | [] => ([], [])
  let d1 := (spanDigits sr.2).1
  let r2 := (spanDigits sr.2).2
  match r2 with
  | c :: r3 =>
    if c == '.' then
      let d2 := (spanDigits r3).1
      if d2.isEmpty then (if d1.isEmpty then none else some (sr.1 ++ d1))
      else some (sr.1 ++ d1 ++ c :: d2)
    else (if d1.isEmpty then none else some (sr.1 ++ d1))
  | [] => if d1.isEmpty then none else some (sr.1 ++ d1)

/-- re.search of the regex of line 78: first (leftmost) match. -/
def findNumber : List Char → Option (List Char)
  | [] => none
  | c :: rest =>
    match numMatchAt (c :: rest) with
    | some m => some m
    | none => findNumber rest

/-- Value of a digit run as a natural number. -/
def digitsVal (l : List Char) : ℕ :=
  l.foldl (fun n c => 10 * n + (c.toNat - 48)) 0

/-- float(m.group(0)) on a numeral matched by the regex of line 78.  The
matched shape always parses, so the surrounding try/except never fires. -/
def numeralToRat (l : List Char) : ℚ :=
  let sgn : ℤ := match l with
    | c :: _ => if c == '-' then -1 else 1
    | [] => 1
  let body : List Char := match l with
    | c :: rest => if c == '-' || c == '+' then rest else l
    | [] => []
  let ip := (spanDigits body).1
  let rest := (spanDigits body).2
  let fp : List Char := match rest with
    | c :: r => if c == '.' then (spanDigits r).1 else []
    | [] => []
  mkRat (sgn * ((digitsVal ip : ℤ) * (10 : ℤ) ^ fp.length + (digitsVal fp : ℤ)))
    ((10 : ℕ) ^ fp.length)

/-- String branch of parse_result_to_float (src/app.py lines 65 to 84). -/
def resultFromStr (s0 : List Char) : Option ℚ :=
  let s := pyStrip s0
  if s.isEmpty then none
  else if ndCheck (lowerL s) then some 0
  else
    let s1 := s.filter (fun c => !(c == ' '))
    let s2 := rmThousands s1
    match findNumber s2 with
    | none => none
    | some m => some (numeralToRat m)

/-- parse_result_to_float (src/app.py lines 57 to 84).  None and float NaN
give None; numbers (but not booleans) are returned as floats; booleans fall
through to str(x), like every other non-numeric value. -/
def parse_result_to_float : Cell → Option ℚ
  | Cell.null => none
  | Cell.nan => none
  | Cell.num q => some q
  | Cell.bool b => resultFromStr (if b then "True".toList else "False".toList)
  | Cell.str s => resultFromStr s

/-! ## Calendar dates and parse_date_any (src/app.py lines 38 to 53) -/

/-- Civil calendar date (proleptic Gregorian), the date component of a
pandas Timestamp. -/
structure Date where
  year : ℤ
  month : ℤ
  day : ℤ
deriving DecidableEq

/-- Days since 1970-01-01 of a civil date (standard civil-from-days
algorithm; every division has a positive divisor, and Int division in this
development is Euclidean). -/
def daysFromCivil (y m d : ℤ) : ℤ :=
  let y2 : ℤ := if m ≤ 2 then y - 1 else y
  let m2 : ℤ := if m ≤ 2 then m + 9 else m - 3
  365 * y2 + y2 / 4 - y2 / 100 + y2 / 400 + (153 * m2 + 2) / 5 + d - 1 - 719468

/-- Civil date of a days-since-1970 count (inverse of daysFromCivil on valid
dates; used only on concrete values in this development). -/
def civilFromDays (z0 : ℤ) : Date :=
  let z : ℤ := z0 + 719468
  let era : ℤ := z / 146097
  let doe : ℤ := z - era * 146097
  let yoe : ℤ := (doe - doe / 1460 + doe / 36524 - doe / 146096) / 365
  let y : ℤ := yoe + era * 400
  let doy : ℤ := doe - (365 * yoe + yoe / 4 - yoe / 100)
  let mp : ℤ := (5 * doy + 2) / 153
  let d : ℤ := doy - (153 * mp + 2) / 5 + 1
  let m : ℤ := if mp < 10 then mp + 3 else mp - 9
  ⟨(if m ≤ 2 then y + 1 else y), m, d⟩

/-- Python int(x) on a rational: truncation toward zero (the denominator of a
normalized rational is positive, and Int.tdiv truncates toward zero). -/
def pyInt (q : ℚ) : ℤ := q.num.tdiv (q.den : ℤ)

/-- Floor of a rational as an integer (Euclidean division by the positive
denominator), matching Int.floor on the rationals. -/
def ratFloor (q : ℚ) : ℤ := q.num / (q.den : ℤ)

/-- Days since 1970-01-01 of the pandas serial epoch 1899-12-30 used at
src/app.py line 46. -/
def epochDays : ℤ := daysFromCivil 1899 12 30

/-- Earliest whole-day pandas Timestamp (Timestamp.min is during 1677-09-21,
so 1677-09-22 is the first representable midnight). -/
def tsMinDay : ℤ := daysFromCivil 1677 9 22

/-- Latest whole-day pandas Timestamp (Timestamp.max is during 2262-04-11). -/
def tsMaxDay : ℤ := daysFromCivil 2262 4 11

/-- Largest whole number of days representable as a pandas Timedelta
(2 to the 63rd minus 1 nanoseconds is slightly less than 106752 days). -/
def tdMaxDays : ℤ := 106751

/-- parse_date_any (src/app.py lines 38 to 53).  pd.isna catches None and
NaN.  A number that is not a boolean takes the serial branch: epoch
1899-12-30 plus a Timedelta of int(x) days; if the Timedelta or the resulting
Timestamp is out of range that branch raises, the exception is swallowed, and
the value falls through to pd.to_datetime with errors coerce, which reads a
number as nanoseconds since 1970-01-01 and yields NaT when out of range (the
float-to-integer conversion of that fallback is modelled as exact; no theorem
below depends on the fallback branch).  String parsing is an external library
call and is abstracted as an arbitrary total function strParse, which models
pd.to_datetime with errors coerce returning either a date or NaT but never
raising.  Booleans make both branches fail and give NaT. -/
def parse_date_any (strParse : List Char → Option Date) : Cell → Option Date
  | Cell.null => none
  | Cell.nan => none
  | Cell.num q =>
    let d : ℤ := pyInt q
    if (-tdMaxDays ≤ d ∧ d ≤ tdMaxDays) ∧
        (tsMinDay ≤ epochDays + d ∧ epochDays + d ≤ tsMaxDay) then
      some (civilFromDays (epochDays + d))
    else
      let ns : ℤ := ratFloor q
      if -9223372036854775807 ≤ ns ∧ ns ≤ 9223372036854775806 then
        some (civilFromDays (ns / 86400000000000))
      else none
  | Cell.bool _ => none
  | Cell.str s => strParse s

/-! ## Supporting lemmas for the parser claims -/

theorem dropWhile_of_forall_false {p : Char → Bool} {l : List Char}
    (h : ∀ c ∈ l, p c = false) : l.dropWhile p = l := by
  cases l with
  | nil => rfl
  | cons a t =>
    rw [List.dropWhile]
    rw [h a (List.mem_cons_self a t)]

theorem pyStrip_of_no_space {l : List Char}
    (h : ∀ c ∈ l, isSpacePy c = false) : pyStrip l = l := by
  unfold pyStrip
  rw [dropWhile_of_forall_false h]
  rw [dropWhile_of_forall_false (fun c hc => h c (List.mem_reverse.mp hc))]
  exact List.reverse_reverse l

theorem toLowerPy_fixed {c : Char} (h : c.toNat < 65) : toLowerPy c = c := by
  unfold toLowerPy
  rw [if_neg]
  omega

theorem containsSeq_head_mem {x : Char} {p l : List Char}
    (h : containsSeq (x :: p) l = true) : x ∈ l := by
  induction l with
  | nil => simp [containsSeq] at h
  | cons c rest ih =>
    rw [containsSeq, Bool.or_eq_true] at h
    rcases h with h | h
    · rw [List.isPrefixOf] at h
      rw [Bool.and_eq_true, beq_iff_eq] at h
      exact h.1 ▸ List.mem_cons_self c rest
    · exact List.mem_cons_of_mem c (ih h)

/-- Character class of the strings treated by the comma-decimal claim: a
digit, a comma, a sign, or a dot. -/
def numericChar (c : Char) : Prop :=
  isDigitC c = true ∨ c = ',' ∨ c = '-' ∨ c = '+' ∨ c = '.'

instance (c : Char) : Decidable (numericChar c) := by
  unfold numericChar
  infer_instance

theorem numericChar_toLower {c : Char} (h : numericChar c) : toLowerPy c = c := by
  rcases h with h | rfl | rfl | rfl | rfl
  · refine toLowerPy_fixed ?_
    simp only [isDigitC, Bool.and_eq_true, decide_eq_true_eq] at h
    omega
  · decide
  · decide
  · decide
  · decide

theorem mem_lowerL_numeric {l : List Char} (hmem : ∀ c ∈ l, numericChar c)
    {x : Char} (hx : x ∈ lowerL l) : numericChar x := by
  rcases List.mem_map.mp hx with ⟨c, hc, rfl⟩
  have hcl := hmem c hc
  rw [numericChar_toLower hcl]
  exact hcl

theorem not_mem_lowerL_of_numeric {l : List Char} (hmem : ∀ c ∈ l, numericChar c)
    {x : Char} (hx : ¬ numericChar x) : x ∉ lowerL l :=
  fun h => hx (mem_lowerL_numeric hmem h)

theorem ndCheck_numeric {l : List Char} (hmem : ∀ c ∈ l, numericChar c) :
    ndCheck (lowerL l) = false := by
  have hn : ('n' : Char) ∉ lowerL l :=
    not_mem_lowerL_of_numeric hmem (by decide)
  have hb : ('b' : Char) ∉ lowerL l :=
    not_mem_lowerL_of_numeric hmem (by decide)
  have hsp : (' ' : Char) ∉ lowerL l :=
    not_mem_lowerL_of_numeric hmem (by decide)
  unfold ndCheck
  have h1 : decide (lowerL l ∈ numTxtZero) = false := by
    rw [decide_eq_false_iff_not]
    intro h
    simp only [numTxtZero, List.mem_cons, List.not_mem_nil, or_false] at h
    rcases h with h | h | h | h | h | h | h <;> rw [h] at hn hb <;>
      first
        | exact hn (by decide)
        | exact hb (by decide)
  have h2 : containsSeq " nd".toList (lowerL l) = false := by
    rw [Bool.eq_false_iff]
    intro h
    exact hsp (containsSeq_head_mem h)
  have h3 : containsSeq " bdl".toList (lowerL l) = false := by
    rw [Bool.eq_false_iff]
    intro h
    exact hsp (containsSeq_head_mem h)
  rw [h1, h2, h3]
  rfl

/-! ## Claim C9: the cell-level parsers are total -/

/-- C9: both cell parsers are total functions into Option: for every cell of
any modelled type they return a value or the absent sentinel, never an
uncaught exception (each except path of the source is an explicit branch of
the embedding); in addition, the per-constructor behavior on null, NaN,
numeric and boolean cells is as the source prescribes, and on strings
parse_date_any defers to the library date parser it wraps. -/
theorem c9_parsers_total :
    ∀ (strParse : List Char → Option Date) (c : Cell),
      (parse_date_any strParse c = none ∨ ∃ d, parse_date_any strParse c = some d) ∧
      (parse_result_to_float c = none ∨ ∃ q, parse_result_to_float c = some q) ∧
      parse_date_any strParse Cell.null = none ∧
      parse_date_any strParse Cell.nan = none ∧
      (∀ b, parse_date_any strParse (Cell.bool b) = none) ∧
      (∀ s, parse_date_any strParse (Cell.str s) = strParse s) ∧
      parse_result_to_float Cell.null = none ∧
      parse_result_to_float Cell.nan = none ∧
      (∀ q, parse_result_to_float (Cell.num q) = some q) ∧
      (∀ b, parse_result_to_float (Cell.bool b) = none) := by
  intro strParse c
  refine ⟨?_, ?_, rfl, rfl, fun _ => rfl, fun _ => rfl, rfl, rfl, fun _ => rfl, ?_⟩
  · cases parse_date_any strParse c with
    | none => exact Or.inl rfl
    | some d => exact Or.inr ⟨d, rfl⟩
  · cases parse_result_to_float c with
    | none => exact Or.inl rfl
    | some q => exact Or.inr ⟨q, rfl⟩
  · intro b
    cases b <;> decide

/-! ## Claim C5: non-detect tokens parse to zero -/

/-- C5: every string whose stripped, lower-cased form is in the non-detect
vocabulary, or contains " nd" or " bdl" as a substring, is parsed by
parse_result_to_float to the number 0.0 (not the absent sentinel); in
particular the ambiguous tokens na and n/a give 0.0, since the source has no
missing-data vocabulary check at all, let alone one running first. -/
theorem c5_nondetect_zero (s : List Char)
    (h : lowerL (pyStrip s) ∈ numTxtZero ∨
         containsSeq " nd".toList (lowerL (pyStrip s)) = true ∨
         containsSeq " bdl".toList (lowerL (pyStrip s)) = true) :
    parse_result_to_float (Cell.str s) = some 0 := by
  have hnd : ndCheck (lowerL (pyStrip s)) = true := by
    unfold ndCheck
    rcases h with h | h | h
    · rw [decide_eq_true h]
      rfl
    · rw [h]
      simp
    · rw [h]
      simp
  have hne : (pyStrip s).isEmpty = false := by
    rcases hps : pyStrip s with _ | ⟨c, t⟩
    · rw [hps] at h
      rcases h with h | h | h
      · exact absurd h (by decide)
      · exact absurd h (by decide)
      · exact absurd h (by decide)
    · rfl
  show resultFromStr s = some 0
  simp only [resultFromStr, hne, hnd]
  simp

/-- C5 witness: the concrete token " N/A " parses to 0.0. -/
theorem c5_witness : parse_result_to_float (Cell.str " N/A ".toList) = some 0 :=
  c5_nondetect_zero _ (Or.inl (by decide))

/-! ## Claim C4: numeric date cells -/

/-- C4 counterexample: at the numeric input minus one half, parse_date_any
returns 1899-12-30 (epoch plus the truncation of the value toward zero),
whereas epoch plus the floor of the value is 1899-12-29, so the claimed
floor-based description fails. -/
theorem c4_counterexample :
    parse_date_any (fun _ => none) (Cell.num (mkRat (-1) 2)) =
        some ⟨1899, 12, 30⟩ ∧
      civilFromDays (epochDays + ⌊mkRat (-1) 2⌋) = ⟨1899, 12, 29⟩ ∧
      (⟨1899, 12, 30⟩ : Date) ≠ ⟨1899, 12, 29⟩ := by
  refine ⟨by decide, ?_, by decide⟩
  rw [Rat.floor_def]
  decide

/-- C4 (amended): for every numeric non-boolean input whose truncated value
stays within the representable Timedelta and Timestamp ranges, parse_date_any
returns the calendar date 1899-12-30 plus int(v) days, where int truncates
toward zero; truncation agrees with the claimed floor exactly when the value
is nonnegative. -/
theorem c4_serial_date (strParse : List Char → Option Date) (q : ℚ)
    (h1 : -tdMaxDays ≤ pyInt q) (h2 : pyInt q ≤ tdMaxDays)
    (h3 : tsMinDay ≤ epochDays + pyInt q) (h4 : epochDays + pyInt q ≤ tsMaxDay) :
    parse_date_any strParse (Cell.num q) =
        some (civilFromDays (epochDays + pyInt q)) ∧
      (0 ≤ q → pyInt q = ⌊q⌋) := by
  constructor
  · show (if (-tdMaxDays ≤ pyInt q ∧ pyInt q ≤ tdMaxDays) ∧
        (tsMinDay ≤ epochDays + pyInt q ∧ epochDays + pyInt q ≤ tsMaxDay) then
          some (civilFromDays (epochDays + pyInt q))
        else _) = _
    rw [if_pos ⟨⟨h1, h2⟩, h3, h4⟩]
  · intro hq
    unfold pyInt
    rw [Int.tdiv_eq_ediv (Rat.num_nonneg.mpr hq) (Int.natCast_nonneg q.den)]
    exact (Rat.floor_def).symm

/-- C4 witness: the spreadsheet serial 44562 parses to the calendar date
2022-01-01, and truncation agrees with floor there. -/
theorem c4_witness :
    parse_date_any (fun _ => none) (Cell.num 44562) = some ⟨2022, 1, 1⟩ ∧
      pyInt 44562 = ⌊(44562 : ℚ)⌋ := by
  have h := c4_serial_date (fun _ => none) 44562
    (by decide) (by decide) (by decide) (by decide)
  exact ⟨by rw [h.1]; decide, h.2 (by decide)⟩

/-! ## Claim C2: comma-as-decimal inputs -/

theorem isDigitC_beq_false {c : Char} (h : isDigitC c = true) (x : Char)
    (hx : isDigitC x = false) : (c == x) = false := by
  rw [beq_eq_false_iff_ne]
  intro he
  rw [he, hx] at h
  cases h

theorem numericChar_not_space {c : Char} (h : numericChar c) :
    isSpacePy c = false := by
  rcases h with h | rfl | rfl | rfl | rfl
  · simp only [isDigitC, Bool.and_eq_true, decide_eq_true_eq] at h
    simp only [isSpacePy, Bool.or_eq_false_iff, decide_eq_false_iff_not]
    omega
  · decide
  · decide
  · decide
  · decide

theorem numericChar_ne_space {c : Char} (h : numericChar c) :
    (c == ' ') = false := by
  rcases h with h | rfl | rfl | rfl | rfl
  · exact isDigitC_beq_false h ' ' (by decide)
  · decide
  · decide
  · decide
  · decide

theorem rmThousandsAux_skip {c : Char} (hc : (c == ',') = false)
    (p : Option Char) (l : List Char) :
    rmThousandsAux p (c :: l) = c :: rmThousandsAux (some c) l := by
  simp only [rmThousandsAux, hc, Bool.false_and]
  simp

theorem rmThousandsAux_nocomma {ds : List Char}
    (h : ∀ c ∈ ds, (c == ',') = false) :
    ∀ p, rmThousandsAux p ds = ds := by
  induction ds with
  | nil => intro p; rfl
  | cons c rest ih =>
    intro p
    rw [rmThousandsAux_skip (h c (List.mem_cons_self c rest))]
    rw [ih (fun x hx => h x (List.mem_cons_of_mem c hx))]

theorem rmThousandsAux_digits_pre (ds : List Char) :
    ds ≠ [] → (∀ c ∈ ds, isDigitC c = true) →
    ∀ (p : Option Char) (tail : List Char),
      ∃ d, isDigitC d = true ∧
        rmThousandsAux p (ds ++ tail) = ds ++ rmThousandsAux (some d) tail := by
  induction ds with
  | nil => intro h; exact absurd rfl h
  | cons c rest ih =>
    intro _ hd p tail
    have hc : isDigitC c = true := hd c (List.mem_cons_self c rest)
    have hstep := rmThousandsAux_skip (isDigitC_beq_false hc ',' (by decide)) p
      (rest ++ tail)
    rcases rest with _ | ⟨c2, rest2⟩
    · refine ⟨c, hc, ?_⟩
      simp only [List.nil_append] at hstep
      simpa using hstep
    · obtain ⟨d, hdd, heq⟩ := ih (by simp)
        (fun x hx => hd x (List.mem_cons_of_mem c hx)) (some c) tail
      refine ⟨d, hdd, ?_⟩
      rw [List.cons_append, hstep, heq]
      simp

theorem thouBoundary_digits {b : List Char} (hd : ∀ c ∈ b, isDigitC c = true) :
    thouBoundary b = decide (b.length = 3) := by
  match b with
  | [] => rfl
  | [x] => rfl
  | [x, y] => rfl
  | [x, y, z] =>
    have hx := hd x (by simp)
    have hy := hd y (by simp)
    have hz := hd z (by simp)
    simp [thouBoundary, hx, hy, hz]
  | x :: y :: z :: w :: t =>
    have hx := hd x (by simp)
    have hy := hd y (by simp)
    have hz := hd z (by simp)
    have hw := hd w (by simp)
    have hword : isWordC w = true := by
      unfold isWordC
      rw [hw]
      rfl
    have hlen : (x :: y :: z :: w :: t).length ≠ 3 := by
      simp
    simp [thouBoundary, hx, hy, hz, hword, hlen]

theorem rmThousandsAux_comma {d : Char} (hd : isDigitC d = true)
    {b : List Char} (hb : ∀ c ∈ b, isDigitC c = true) :
    rmThousandsAux (some d) (',' :: b) =
      if b.length = 3 then b else ',' :: b := by
  have hbnc : ∀ c ∈ b, (c == ',') = false :=
    fun c hc => isDigitC_beq_false (hb c hc) ',' (by decide)
  rw [rmThousandsAux]
  rw [thouBoundary_digits hb]
  by_cases h3 : b.length = 3
  · simp [hd, h3, rmThousandsAux_nocomma hbnc]
  · simp [hd, h3, rmThousandsAux_nocomma hbnc]

theorem takeWhile_digits_append {ds tail : List Char}
    (hd : ∀ c ∈ ds, isDigitC c = true)
    (ht : ∀ c, tail.head? = some c → isDigitC c = false) :
    (ds ++ tail).takeWhile isDigitC = ds := by
  induction ds with
  | nil =>
    cases tail with
    | nil => rfl
    | cons c r =>
      have hc := ht c rfl
      simp [List.takeWhile, hc]
  | cons c r ih =>
    have hc := hd c (List.mem_cons_self c r)
    simp [List.takeWhile, hc]
    exact ih (fun x hx => hd x (List.mem_cons_of_mem c hx))

theorem dropWhile_digits_append {ds tail : List Char}
    (hd : ∀ c ∈ ds, isDigitC c = true)
    (ht : ∀ c, tail.head? = some c → isDigitC c = false) :
    (ds ++ tail).dropWhile isDigitC = tail := by
  induction ds with
  | nil =>
    cases tail with
    | nil => rfl
    | cons c r =>
      have hc := ht c rfl
      simp [List.dropWhile, hc]
  | cons c r ih =>
    have hc := hd c (List.mem_cons_self c r)
    simp [List.dropWhile, hc]
    exact ih (fun x hx => hd x (List.mem_cons_of_mem c hx))

theorem spanDigits_append {ds tail : List Char}
    (hd : ∀ c ∈ ds, isDigitC c = true)
    (ht : ∀ c, tail.head? = some c → isDigitC c = false) :
    spanDigits (ds ++ tail) = (ds, tail) := by
  unfold spanDigits
  rw [takeWhile_digits_append hd ht, dropWhile_digits_append hd ht]

theorem numMatchAt_digits_tail {ds tail : List Char} (hne : ds ≠ [])
    (hd : ∀ c ∈ ds, isDigitC c = true)
    (ht : ∀ c, tail.head? = some c → isDigitC c = false ∧ (c == '.') = false) :
    numMatchAt (ds ++ tail) = some ds := by
  obtain ⟨c0, ds0, rfl⟩ := List.exists_cons_of_ne_nil hne
  have hc0 := hd c0 (List.mem_cons_self c0 ds0)
  have h1 : (c0 == '-') = false := isDigitC_beq_false hc0 '-' (by decide)
  have h2 : (c0 == '+') = false := isDigitC_beq_false hc0 '+' (by decide)
  have hspan : spanDigits (c0 :: ds0 ++ tail) = (c0 :: ds0, tail) :=
    spanDigits_append hd (fun c hc => (ht c hc).1)
  rcases tail with _ | ⟨t0, ts⟩
  · have hspan2 : spanDigits (c0 :: ds0) = (c0 :: ds0, []) := by
      simpa using hspan
    simp [numMatchAt, h1, h2, hspan2]
  · have hspan2 : spanDigits (c0 :: (ds0 ++ t0 :: ts)) = (c0 :: ds0, t0 :: ts) := by
      simpa using hspan
    have ht0 : t0 ≠ '.' := by
      have := (ht t0 rfl).2
      simpa using this
    simp [numMatchAt, h1, h2, hspan2, ht0]

theorem numMatchAt_sign_digits_tail {s : Char} (hs : s = '-' ∨ s = '+')
    {ds tail : List Char} (hne : ds ≠ [])
    (hd : ∀ c ∈ ds, isDigitC c = true)
    (ht : ∀ c, tail.head? = some c → isDigitC c = false ∧ (c == '.') = false) :
    numMatchAt (s :: (ds ++ tail)) = some (s :: ds) := by
  obtain ⟨c0, ds0, rfl⟩ := List.exists_cons_of_ne_nil hne
  have hsgn : (s == '-' || s == '+') = true := by
    rcases hs with rfl | rfl <;> decide
  have hspan : spanDigits (c0 :: ds0 ++ tail) = (c0 :: ds0, tail) :=
    spanDigits_append hd (fun c hc => (ht c hc).1)
  rcases tail with _ | ⟨t0, ts⟩
  · have hspan2 : spanDigits (c0 :: ds0) = (c0 :: ds0, []) := by
      simpa using hspan
    simp [numMatchAt, hsgn, hspan2]
  · have hspan2 : spanDigits (c0 :: (ds0 ++ t0 :: ts)) = (c0 :: ds0, t0 :: ts) := by
      simpa using hspan
    have ht0 : t0 ≠ '.' := by
      have := (ht t0 rfl).2
      simpa using this
    simp [numMatchAt, hsgn, hspan2, ht0]

theorem findNumber_head_some {l m : List Char} (h : numMatchAt l = some m) :
    findNumber l = some m := by
  cases l with
  | nil => simp [numMatchAt, spanDigits, List.takeWhile, List.dropWhile] at h
  | cons c t =>
    simp only [findNumber, h]

theorem digitsVal_nil : digitsVal [] = 0 := rfl

theorem numeralToRat_digits {ds : List Char} (hne : ds ≠ [])
    (hd : ∀ c ∈ ds, isDigitC c = true) :
    numeralToRat ds = ((digitsVal ds : ℤ) : ℚ) := by
  obtain ⟨c0, ds0, rfl⟩ := List.exists_cons_of_ne_nil hne
  have hc0 := hd c0 (List.mem_cons_self c0 ds0)
  have h1 : (c0 == '-') = false := isDigitC_beq_false hc0 '-' (by decide)
  have h2 : (c0 == '+') = false := isDigitC_beq_false hc0 '+' (by decide)
  have hspan : spanDigits (c0 :: ds0) = (c0 :: ds0, []) := by
    have h := @spanDigits_append (c0 :: ds0) [] hd
      (by intro c hc; cases hc)
    simpa using h
  simp [numeralToRat, h1, h2, hspan, Rat.mkRat_one, digitsVal_nil]

theorem numeralToRat_sign_digits {s : Char} (hs : s = '-' ∨ s = '+')
    {ds : List Char} (hne : ds ≠ []) (hd : ∀ c ∈ ds, isDigitC c = true) :
    numeralToRat (s :: ds) =
      (((if s = '-' then (-1 : ℤ) else 1) * (digitsVal ds : ℤ) : ℤ) : ℚ) := by
  obtain ⟨c0, ds0, rfl⟩ := List.exists_cons_of_ne_nil hne
  have hspan : spanDigits (c0 :: ds0) = (c0 :: ds0, []) := by
    have h := @spanDigits_append (c0 :: ds0) [] hd
      (by intro c hc; cases hc)
    simpa using h
  rcases hs with rfl | rfl
  · simp [numeralToRat, hspan, Rat.mkRat_one, digitsVal_nil]
  · simp [numeralToRat, hspan, Rat.mkRat_one, digitsVal_nil]

theorem rmThousands_sgn_comma (sgn : List Char)
    (hsg : sgn = [] ∨ ∃ s, sgn = [s] ∧ (s == ',') = false)
    {a b : List Char} (ha : a ≠ []) (hda : ∀ c ∈ a, isDigitC c = true)
    (hdb : ∀ c ∈ b, isDigitC c = true) :
    rmThousands (sgn ++ a ++ ',' :: b) =
      sgn ++ a ++ (if b.length = 3 then b else ',' :: b) := by
  have hcore : ∀ p, rmThousandsAux p (a ++ ',' :: b) =
      a ++ (if b.length = 3 then b else ',' :: b) := by
    intro p
    obtain ⟨d, hdd, heq⟩ := rmThousandsAux_digits_pre a ha hda p (',' :: b)
    rw [heq, rmThousandsAux_comma hdd hdb]
  rcases hsg with rfl | ⟨s, rfl, hsne⟩
  · simpa [rmThousands] using hcore none
  · show rmThousandsAux none (s :: (a ++ ',' :: b)) = _
    rw [rmThousandsAux_skip hsne, hcore]
    rfl

theorem numMatchAt_digits_all {ds : List Char} (hne : ds ≠ [])
    (hd : ∀ c ∈ ds, isDigitC c = true) : numMatchAt ds = some ds := by
  have h := @numMatchAt_digits_tail ds [] hne hd (by intro c hc; cases hc)
  simpa using h

theorem numMatchAt_sign_digits_all {s : Char} (hs : s = '-' ∨ s = '+')
    {ds : List Char} (hne : ds ≠ []) (hd : ∀ c ∈ ds, isDigitC c = true) :
    numMatchAt (s :: ds) = some (s :: ds) := by
  have h := @numMatchAt_sign_digits_tail s hs ds [] hne hd
    (by intro c hc; cases hc)
  simpa using h

/-- Sign factor of the optional leading sign of a numeral. -/
def sgnVal (sgn : List Char) : ℤ := if sgn = ['-'] then -1 else 1

/-- C2 counterexample: the comma-as-decimal string 0,5 parses to 0.0, not to
the claimed 0.5; the code never converts a decimal comma, it extracts the
first numeral, which stops at the comma. -/
theorem c2_counterexample :
    parse_result_to_float (Cell.str "0,5".toList) = some 0 ∧
      (0 : ℚ) ≠ mkRat 1 2 := by
  constructor
  · decide
  · decide


theorem c2_comma_not_decimal (sgn a b : List Char)
    (hs : sgn = [] ∨ sgn = ['-'] ∨ sgn = ['+'])
    (ha : a ≠ []) (hb : b ≠ [])
    (hda : ∀ c ∈ a, isDigitC c = true) (hdb : ∀ c ∈ b, isDigitC c = true) :
    parse_result_to_float (Cell.str (sgn ++ a ++ ',' :: b)) =
      some (((sgnVal sgn *
        (if b.length = 3 then (digitsVal (a ++ b) : ℤ)
          else (digitsVal a : ℤ))) : ℤ) : ℚ) := by
  have hmem : ∀ c ∈ sgn ++ a ++ ',' :: b, numericChar c := by
    intro c hc
    rcases List.mem_append.mp hc with hc | hc
    · rcases List.mem_append.mp hc with hc | hc
      · rcases hs with rfl | rfl | rfl
        · cases hc
        · right; right; left; simpa using hc
        · right; right; right; left; simpa using hc
      · exact Or.inl (hda c hc)
    · rcases List.mem_cons.mp hc with rfl | hc
      · right; left; rfl
      · exact Or.inl (hdb c hc)
  have hstrip : pyStrip (sgn ++ a ++ ',' :: b) = sgn ++ a ++ ',' :: b :=
    pyStrip_of_no_space (fun c hc => numericChar_not_space (hmem c hc))
  have hne : (sgn ++ a ++ ',' :: b).isEmpty = false := by
    simp
  have hnd : ndCheck (lowerL (sgn ++ a ++ ',' :: b)) = false := ndCheck_numeric hmem
  have hfil : (sgn ++ a ++ ',' :: b).filter (fun c => !(c == ' ')) =
      sgn ++ a ++ ',' :: b :=
    List.filter_eq_self.mpr
      (fun c hc => by rw [numericChar_ne_space (hmem c hc)]; rfl)
  have hsg2 : sgn = [] ∨ ∃ s, sgn = [s] ∧ (s == ',') = false := by
    rcases hs with rfl | rfl | rfl
    · exact Or.inl rfl
    · exact Or.inr ⟨'-', rfl, by decide⟩
    · exact Or.inr ⟨'+', rfl, by decide⟩
  have hrm := rmThousands_sgn_comma sgn hsg2 ha hda hdb
  have hdab : ∀ c ∈ a ++ b, isDigitC c = true := by
    intro c hc
    rcases List.mem_append.mp hc with hc | hc
    · exact hda c hc
    · exact hdb c hc
  have hab : a ++ b ≠ [] := by
    intro h
    exact ha (List.append_eq_nil.mp h).1
  have htc : ∀ c, (',' :: b).head? = some c →
      isDigitC c = false ∧ (c == '.') = false := by
    intro c hc
    simp only [List.head?_cons, Option.some_inj] at hc
    subst hc
    exact ⟨by decide, by decide⟩
  show resultFromStr (sgn ++ a ++ ',' :: b) = _
  simp only [resultFromStr, hstrip, hne, hnd, Bool.false_eq_true, if_false, hfil,
    rmThousands]
  rw [show rmThousandsAux none (sgn ++ a ++ ',' :: b) =
    sgn ++ a ++ (if b.length = 3 then b else ',' :: b) from hrm]
  by_cases h3 : b.length = 3
  · rw [if_pos h3, if_pos h3]
    rcases hs with rfl | rfl | rfl
    · simp only [List.nil_append]
      rw [findNumber_head_some (numMatchAt_digits_all hab hdab)]
      simp [numeralToRat_digits hab hdab, sgnVal]
    · simp only [List.cons_append, List.nil_append, List.append_assoc]
      rw [findNumber_head_some
        (numMatchAt_sign_digits_all (Or.inl rfl) hab hdab)]
      simp [numeralToRat_sign_digits (Or.inl rfl) hab hdab, sgnVal]
    · simp only [List.cons_append, List.nil_append, List.append_assoc]
      rw [findNumber_head_some
        (numMatchAt_sign_digits_all (Or.inr rfl) hab hdab)]
      simp [numeralToRat_sign_digits (Or.inr rfl) hab hdab, sgnVal]
  · rw [if_neg h3, if_neg h3]
    rcases hs with rfl | rfl | rfl
    · simp only [List.nil_append]
      rw [findNumber_head_some (numMatchAt_digits_tail ha hda htc)]
      simp [numeralToRat_digits ha hda, sgnVal]
    · simp only [List.cons_append, List.nil_append, List.append_assoc]
      rw [findNumber_head_some
        (numMatchAt_sign_digits_tail (Or.inl rfl) ha hda htc)]
      simp [numeralToRat_sign_digits (Or.inl rfl) ha hda, sgnVal]
    · simp only [List.cons_append, List.nil_append, List.append_assoc]
      rw [findNumber_head_some
        (numMatchAt_sign_digits_tail (Or.inr rfl) ha hda htc)]
      simp [numeralToRat_sign_digits (Or.inr rfl) ha hda, sgnVal]

theorem c2_witness :
    parse_result_to_float (Cell.str "1,234".toList) = some 1234 ∧
      parse_result_to_float (Cell.str "-3,7".toList) = some (-3) := by
  constructor
  · have h := c2_comma_not_decimal [] ['1'] ['2', '3', '4'] (Or.inl rfl)
      (by decide) (by decide) (by decide) (by decide)
    rw [show (([] : List Char) ++ ['1'] ++ ',' :: ['2', '3', '4']) =
      "1,234".toList by decide] at h
    rw [h]
    decide
  · have h := c2_comma_not_decimal ['-'] ['3'] ['7'] (Or.inr (Or.inl rfl))
      (by decide) (by decide) (by decide) (by decide)
    rw [show ((['-'] : List Char) ++ ['3'] ++ ',' :: ['7']) =
      "-3,7".toList by decide] at h
    rw [h]
    decide

/-! ## Measurement rows, the sort order, and the monthly aggregation
(src/app.py lines 136 to 141 and 243 to 257) -/

/-- Projection of one row of the normalized frame onto the fields the
aggregation claims mention: Site ID, MonthStart, DateClean, Result (the Type
and Unit columns ride along unchanged in the source and are omitted here). -/
structure Row where
  siteId : Option (List Char)
  monthStart : Option Date
  dateClean : Option Date
  result : Option ℚ
deriving DecidableEq

/-- Integer comparison as a Bool. -/
def intLEb (a b : ℤ) : Bool := decide (a ≤ b)

/-- Lexicographic composition step: equal first components defer to the rest
of the sort key, distinct ones are ordered by the component. -/
def lexStep {α : Type} [DecidableEq α] (le : α → α → Bool) (x y : α)
    (rest : Bool) : Bool :=
  if x = y then rest else le x y

/-- Chronological comparison of civil dates: lexicographic on
(year, month, day). -/
def dateLEb (x y : Date) : Bool :=
  lexStep intLEb x.year y.year
    (lexStep intLEb x.month y.month (intLEb x.day y.day))

/-- Lexicographic comparison of code-point lists (the order pandas uses on
string keys). -/
def natListLEb : List ℕ → List ℕ → Bool
  | [], _ => true
  | _ :: _, [] => false
  | x :: xs, y :: ys => if x = y then natListLEb xs ys else decide (x ≤ y)

/-- Missing-last comparison of sort_values with the default na_position:
a missing value sorts after every present one. -/
def optLEb {α : Type} (le : α → α → Bool) : Option α → Option α → Bool
  | none, none => true
  | none, some _ => false
  | some _, none => true
  | some x, some y => le x y

/-- Code points of the Site ID (string sort key). -/
def siteKey (r : Row) : Option (List ℕ) := r.siteId.map (List.map Char.toNat)

/-- Row comparison of sort_values on Site ID, MonthStart, DateClean
(src/app.py line 254): ascending on each key, missing values last; ties keep
input order because the sort below is stable. -/
def rowLEb (r1 r2 : Row) : Bool :=
  lexStep (optLEb natListLEb) (siteKey r1) (siteKey r2)
    (lexStep (optLEb dateLEb) r1.monthStart r2.monthStart
      (optLEb dateLEb r1.dateClean r2.dateClean))

/-- Propositional form of the row order. -/
def rowLE (r1 r2 : Row) : Prop := rowLEb r1 r2 = true

instance : DecidableRel rowLE := fun _ _ => inferInstanceAs (Decidable (_ = true))

/-! ### The row order is a total preorder -/

theorem lexStep_total {α : Type} [DecidableEq α] {le : α → α → Bool}
    (htot : ∀ a b, le a b = true ∨ le b a = true)
    (x y : α) {r1 r2 : Bool} (hr : r1 = true ∨ r2 = true) :
    lexStep le x y r1 = true ∨ lexStep le y x r2 = true := by
  unfold lexStep
  by_cases hxy : x = y
  · subst hxy
    rw [if_pos rfl, if_pos rfl]
    exact hr
  · have hyx : ¬ y = x := fun he => hxy he.symm
    rw [if_neg hxy, if_neg hyx]
    exact htot x y

theorem lexStep_trans {α : Type} [DecidableEq α] {le : α → α → Bool}
    (htr : ∀ a b c, le a b = true → le b c = true → le a c = true)
    (hanti : ∀ a b, le a b = true → le b a = true → a = b)
    {x y z : α} {r1 r2 r3 : Bool}
    (hr : r1 = true → r2 = true → r3 = true)
    (h1 : lexStep le x y r1 = true) (h2 : lexStep le y z r2 = true) :
    lexStep le x z r3 = true := by
  unfold lexStep at h1 h2 ⊢
  by_cases hxy : x = y
  · subst hxy
    rw [if_pos rfl] at h1
    by_cases hxz : x = z
    · subst hxz
      rw [if_pos rfl] at h2
      rw [if_pos rfl]
      exact hr h1 h2
    · rw [if_neg hxz] at h2
      rw [if_neg hxz]
      exact h2
  · by_cases hyz : y = z
    · subst hyz
      rw [if_neg hxy] at h1
      rw [if_neg hxy]
      exact h1
    · rw [if_neg hxy] at h1
      rw [if_neg hyz] at h2
      have hxz : ¬ x = z := by
        intro he
        subst he
        exact hxy (hanti x y h1 h2)
      rw [if_neg hxz]
      exact htr x y z h1 h2

theorem intLEb_total : ∀ a b : ℤ, intLEb a b = true ∨ intLEb b a = true := by
  intro a b
  rcases Int.le_total a b with h | h
  · exact Or.inl (decide_eq_true h)
  · exact Or.inr (decide_eq_true h)

theorem intLEb_trans : ∀ a b c : ℤ,
    intLEb a b = true → intLEb b c = true → intLEb a c = true := by
  intro a b c h1 h2
  exact decide_eq_true (le_trans (of_decide_eq_true h1) (of_decide_eq_true h2))

theorem intLEb_antisymm : ∀ a b : ℤ,
    intLEb a b = true → intLEb b a = true → a = b := by
  intro a b h1 h2
  exact le_antisymm (of_decide_eq_true h1) (of_decide_eq_true h2)

theorem dateLEb_total : ∀ x y : Date, dateLEb x y = true ∨ dateLEb y x = true := by
  intro x y
  exact lexStep_total intLEb_total _ _
    (lexStep_total intLEb_total _ _ (intLEb_total x.day y.day))

theorem dateLEb_trans : ∀ x y z : Date,
    dateLEb x y = true → dateLEb y z = true → dateLEb x z = true := by
  intro x y z h1 h2
  exact lexStep_trans intLEb_trans intLEb_antisymm
    (lexStep_trans intLEb_trans intLEb_antisymm
      (intLEb_trans x.day y.day z.day))
    h1 h2

theorem dateLEb_refl (x : Date) : dateLEb x x = true := by
  unfold dateLEb lexStep
  rw [if_pos rfl, if_pos rfl]
  exact decide_eq_true le_rfl

theorem dateLEb_antisymm : ∀ x y : Date,
    dateLEb x y = true → dateLEb y x = true → x = y := by
  intro x y h1 h2
  rcases x with ⟨xy, xm, xd⟩
  rcases y with ⟨yy, ym, yd⟩
  simp only [dateLEb, lexStep, intLEb] at h1 h2
  simp only [Date.mk.injEq]
  by_cases h : xy = yy
  · subst h
    simp only [if_pos rfl] at h1 h2
    by_cases hm : xm = ym
    · subst hm
      simp only [if_pos rfl] at h1 h2
      refine ⟨rfl, rfl, ?_⟩
      exact le_antisymm (of_decide_eq_true h1) (of_decide_eq_true h2)
    · have hm2 : ¬ ym = xm := fun he => hm he.symm
      rw [if_neg hm] at h1
      rw [if_neg hm2] at h2
      exact absurd (le_antisymm (of_decide_eq_true h1) (of_decide_eq_true h2)) hm
  · have h2' : ¬ yy = xy := fun he => h he.symm
    rw [if_neg h] at h1
    rw [if_neg h2'] at h2
    exact absurd (le_antisymm (of_decide_eq_true h1) (of_decide_eq_true h2)) h

theorem natListLEb_total : ∀ x y : List ℕ,
    natListLEb x y = true ∨ natListLEb y x = true := by
  intro x
  induction x with
  | nil => intro y; exact Or.inl rfl
  | cons a xs ih =>
    intro y
    cases y with
    | nil => exact Or.inr rfl
    | cons b ys =>
      by_cases hab : a = b
      · subst hab
        rcases ih ys with h | h
        · left
          simpa [natListLEb] using h
        · right
          simpa [natListLEb] using h
      · have hba : ¬ b = a := fun he => hab he.symm
        rcases Nat.le_total a b with h | h
        · left
          simp [natListLEb, hab, h]
        · right
          simp [natListLEb, hba, h]

theorem natListLEb_trans : ∀ x y z : List ℕ,
    natListLEb x y = true → natListLEb y z = true → natListLEb x z = true := by
  intro x
  induction x with
  | nil => intro y z _ _; rfl
  | cons a xs ih =>
    intro y z h1 h2
    cases y with
    | nil => exact absurd h1 (by simp [natListLEb])
    | cons b ys =>
      cases z with
      | nil => exact absurd h2 (by simp [natListLEb])
      | cons c zs =>
        by_cases hab : a = b
        · subst hab
          by_cases hac : a = c
          · subst hac
            simp only [natListLEb, if_pos rfl] at h1 h2 ⊢
            exact ih ys zs h1 h2
          · simp only [natListLEb, if_pos rfl] at h1
            simp only [natListLEb, if_neg hac] at h2 ⊢
            exact h2
        · by_cases hbc : b = c
          · subst hbc
            simp only [natListLEb, if_neg hab] at h1 ⊢
            exact h1
          · simp only [natListLEb, if_neg hab] at h1
            simp only [natListLEb, if_neg hbc] at h2
            have hle1 := of_decide_eq_true h1
            have hle2 := of_decide_eq_true h2
            have hac : ¬ a = c := by
              intro he
              subst he
              exact hab (Nat.le_antisymm hle1 hle2)
            simp only [natListLEb, if_neg hac]
            exact decide_eq_true (Nat.le_trans hle1 hle2)

theorem natListLEb_antisymm : ∀ x y : List ℕ,
    natListLEb x y = true → natListLEb y x = true → x = y := by
  intro x
  induction x with
  | nil =>
    intro y _ h2
    cases y with
    | nil => rfl
    | cons b ys => exact absurd h2 (by simp [natListLEb])
  | cons a xs ih =>
    intro y h1 h2
    cases y with
    | nil => exact absurd h1 (by simp [natListLEb])
    | cons b ys =>
      by_cases hab : a = b
      · subst hab
        simp only [natListLEb, if_pos rfl] at h1 h2
        rw [ih ys h1 h2]
      · have hba : ¬ b = a := fun he => hab he.symm
        simp only [natListLEb, if_neg hab] at h1
        simp only [natListLEb, if_neg hba] at h2
        exact absurd (Nat.le_antisymm (of_decide_eq_true h1) (of_decide_eq_true h2)) hab

theorem optLEb_total {α : Type} {le : α → α → Bool}
    (htot : ∀ a b, le a b = true ∨ le b a = true) :
    ∀ x y : Option α, optLEb le x y = true ∨ optLEb le y x = true := by
  intro x y
  cases x with
  | none =>
    cases y with
    | none => exact Or.inl rfl
    | some b => exact Or.inr rfl
  | some a =>
    cases y with
    | none => exact Or.inl rfl
    | some b => exact htot a b

theorem optLEb_trans {α : Type} {le : α → α → Bool}
    (htr : ∀ a b c, le a b = true → le b c = true → le a c = true) :
    ∀ x y z : Option α,
      optLEb le x y = true → optLEb le y z = true → optLEb le x z = true := by
  intro x y z h1 h2
  cases x with
  | none =>
    cases y with
    | none =>
      cases z with
      | none => rfl
      | some c => exact h2
    | some b =>
      exact absurd h1 (by simp [optLEb])
  | some a =>
    cases z with
    | none => rfl
    | some c =>
      cases y with
      | none => exact absurd h2 (by simp [optLEb])
      | some b => exact htr a b c h1 h2

theorem optLEb_antisymm {α : Type} {le : α → α → Bool}
    (hanti : ∀ a b, le a b = true → le b a = true → a = b) :
    ∀ x y : Option α, optLEb le x y = true → optLEb le y x = true → x = y := by
  intro x y h1 h2
  cases x with
  | none =>
    cases y with
    | none => rfl
    | some b => exact absurd h1 (by simp [optLEb])
  | some a =>
    cases y with
    | none => exact absurd h2 (by simp [optLEb])
    | some b => rw [hanti a b h1 h2]

theorem rowLEb_total : ∀ r1 r2 : Row, rowLEb r1 r2 = true ∨ rowLEb r2 r1 = true := by
  intro r1 r2
  exact lexStep_total (optLEb_total natListLEb_total) _ _
    (lexStep_total (optLEb_total dateLEb_total) _ _
      (optLEb_total dateLEb_total r1.dateClean r2.dateClean))

theorem rowLEb_trans : ∀ r1 r2 r3 : Row,
    rowLEb r1 r2 = true → rowLEb r2 r3 = true → rowLEb r1 r3 = true := by
  intro r1 r2 r3 h1 h2
  exact lexStep_trans (optLEb_trans natListLEb_trans)
    (optLEb_antisymm natListLEb_antisymm)
    (lexStep_trans (optLEb_trans dateLEb_trans) (optLEb_antisymm dateLEb_antisymm)
      (optLEb_trans dateLEb_trans r1.dateClean r2.dateClean r3.dateClean))
    h1 h2

instance : IsTotal Row rowLE := ⟨rowLEb_total⟩

instance : IsTrans Row rowLE := ⟨rowLEb_trans⟩

/-! ### Aggregation pipeline definitions -/

/-- The stable sort of src/app.py line 254 (pandas uses a stable lexsort for
multi-key sort_values; insertion sort is stable for a total preorder, so it
produces the same permutation). -/
def sortRows (rows : List Row) : List Row := List.insertionSort rowLE rows

/-- The groupby key of src/app.py line 255: present (Site ID, MonthStart)
pairs; a row with a missing key component belongs to no group because groupby
drops missing keys by default. -/
def presentKey (r : Row) : Option (List Char × Date) :=
  match r.siteId, r.monthStart with
  | some s, some m => some (s, m)
  | _, _ => none

/-- Keep-first deduplication scan carrying the set of labels already seen. -/
def dedupFirstAux {α : Type} [DecidableEq α] (seen : List α) : List α → List α
  | [] => []
  | a :: l =>
    if a ∈ seen then dedupFirstAux seen l
    else a :: dedupFirstAux (a :: seen) l

/-- Keep-first deduplication, as done by pandas duplicated with keep first
(also the way groupby collects its distinct keys from the sorted frame). -/
def dedupFirst {α : Type} [DecidableEq α] (l : List α) : List α :=
  dedupFirstAux [] l

/-- Last non-null entry of a column slice, the per-column semantics of
DataFrameGroupBy.last (which skips missing values). -/
def lastSome {α : Type} : List (Option α) → Option α
  | [] => none
  | o :: rest =>
    match lastSome rest with
    | some v => some v
    | none => o

/-- Rows of one (Site ID, MonthStart) group, in sorted order. -/
def groupOf (sorted : List Row) (k : List Char × Date) : List Row :=
  sorted.filter (fun r => decide (presentKey r = some k))

/-- The aggregated output row of one group: the group key plus the last
non-null DateClean and Result of the sorted group (groupby last with
numeric_only False takes each column independently). -/
def aggRow (g : List Row) (k : List Char × Date) : Row :=
  { siteId := some k.1, monthStart := some k.2,
    dateClean := lastSome (g.map Row.dateClean),
    result := lastSome (g.map Row.result) }

/-- The monthly aggregation of src/app.py lines 253 to 255: sort by
(Site ID, MonthStart, DateClean), group by the present (Site ID, MonthStart)
keys (groups in ascending key order, missing keys dropped), and take the last
non-null entry of every column within each group. -/
def monthly_last (rows : List Row) : List Row :=
  (dedupFirst ((sortRows rows).filterMap presentKey)).map
    (fun k => aggRow (groupOf (sortRows rows) k) k)

/-- The date-range filter of src/app.py line 250: a row passes when its
MonthStart is present and lies in the closed interval; a missing MonthStart
compares false on both sides. -/
def dateFilter (s e : Date) (rows : List Row) : List Row :=
  rows.filter (fun r =>
    match r.monthStart with
    | none => false
    | some m => dateLEb s m && dateLEb m e)

/-- Month floor of src/app.py line 141: to_period(M).to_timestamp replaces
the day with the first of the month. -/
def monthFloorD (d : Date) : Date := ⟨d.year, d.month, 1⟩

/-- One raw input row as load_excel sees it after column standardization:
a Site ID cell (modelled as an optional string), the raw date cell and the
raw result cell. -/
structure RawRow where
  site : Option (List Char)
  dateRaw : Cell
  resultRaw : Cell

/-- Row construction of load_excel (src/app.py lines 136 to 141): DateClean
is parse_date_any of the raw date, Result is parse_result_to_float of the raw
result, and MonthStart is the month floor of DateClean (missing when DateClean
is missing). -/
def load_row (strParse : List Char → Option Date) (rr : RawRow) : Row :=
  { siteId := rr.site,
    dateClean := parse_date_any strParse rr.dateRaw,
    monthStart := (parse_date_any strParse rr.dateRaw).map monthFloorD,
    result := parse_result_to_float rr.resultRaw }

/-- load_excel row-wise on the whole table. -/
def load_rows (strParse : List Char → Option Date) (l : List RawRow) : List Row :=
  l.map (load_row strParse)

/-! ### Lemmas about dedupFirst and lastSome -/

theorem mem_dedupFirstAux {α : Type} [DecidableEq α] :
    ∀ (l seen : List α) (x : α),
      x ∈ dedupFirstAux seen l ↔ x ∈ l ∧ x ∉ seen := by
  intro l
  induction l with
  | nil => simp [dedupFirstAux]
  | cons a t ih =>
    intro seen x
    by_cases ha : a ∈ seen
    · rw [show dedupFirstAux seen (a :: t) = dedupFirstAux seen t from by
        simp [dedupFirstAux, ha]]
      rw [ih]
      constructor
      · rintro ⟨hx, hnx⟩
        exact ⟨List.mem_cons_of_mem a hx, hnx⟩
      · rintro ⟨hx, hnx⟩
        rcases List.mem_cons.mp hx with rfl | hx
        · exact absurd ha hnx
        · exact ⟨hx, hnx⟩
    · rw [show dedupFirstAux seen (a :: t) = a :: dedupFirstAux (a :: seen) t from by
        simp [dedupFirstAux, ha]]
      constructor
      · intro hx
        rcases List.mem_cons.mp hx with rfl | hx
        · exact ⟨List.mem_cons_self _ _, ha⟩
        · have hmem := (ih (a :: seen) x).mp hx
          exact ⟨List.mem_cons_of_mem a hmem.1,
            fun hs => hmem.2 (List.mem_cons_of_mem a hs)⟩
      · rintro ⟨hx, hnx⟩
        rcases List.mem_cons.mp hx with rfl | hx
        · exact List.mem_cons_self _ _
        · by_cases hxa : x = a
          · subst hxa
            exact List.mem_cons_self _ _
          · refine List.mem_cons_of_mem a ((ih (a :: seen) x).mpr ⟨hx, ?_⟩)
            intro hs
            rcases List.mem_cons.mp hs with h | h
            · exact hxa h
            · exact hnx h

theorem mem_dedupFirst {α : Type} [DecidableEq α] (l : List α) (x : α) :
    x ∈ dedupFirst l ↔ x ∈ l := by
  unfold dedupFirst
  rw [mem_dedupFirstAux]
  simp

theorem dedupFirstAux_nodup {α : Type} [DecidableEq α] :
    ∀ (l seen : List α), (dedupFirstAux seen l).Nodup := by
  intro l
  induction l with
  | nil => intro seen; simp [dedupFirstAux]
  | cons a t ih =>
    intro seen
    by_cases ha : a ∈ seen
    · rw [show dedupFirstAux seen (a :: t) = dedupFirstAux seen t from by
        simp [dedupFirstAux, ha]]
      exact ih seen
    · rw [show dedupFirstAux seen (a :: t) = a :: dedupFirstAux (a :: seen) t from by
        simp [dedupFirstAux, ha]]
      refine List.nodup_cons.mpr ⟨?_, ih (a :: seen)⟩
      intro hmem
      exact ((mem_dedupFirstAux t (a :: seen) a).mp hmem).2 (List.mem_cons_self a seen)

theorem dedupFirst_nodup {α : Type} [DecidableEq α] (l : List α) :
    (dedupFirst l).Nodup := dedupFirstAux_nodup l []

theorem lastSome_eq_none_iff {α : Type} :
    ∀ l : List (Option α), lastSome l = none ↔ ∀ o ∈ l, o = none := by
  intro l
  induction l with
  | nil => simp [lastSome]
  | cons o rest ih =>
    rw [lastSome]
    cases hrest : lastSome rest with
    | some v =>
      simp only []
      constructor
      · intro h
        cases h
      · intro h
        have hnone : lastSome rest = none :=
          ih.mpr (fun x hx => h x (List.mem_cons_of_mem o hx))
        rw [hrest] at hnone
        cases hnone
    | none =>
      simp only []
      constructor
      · intro h
        intro x hx
        rcases List.mem_cons.mp hx with rfl | hx
        · exact h
        · exact (ih.mp hrest) x hx
      · intro h
        exact h o (List.mem_cons_self o rest)

theorem lastSome_mem {α : Type} :
    ∀ {l : List (Option α)} {v : α}, lastSome l = some v → some v ∈ l := by
  intro l
  induction l with
  | nil => intro v h; cases h
  | cons o rest ih =>
    intro v h
    rw [lastSome] at h
    cases hrest : lastSome rest with
    | some w =>
      rw [hrest] at h
      cases h
      exact List.mem_cons_of_mem o (ih hrest)
    | none =>
      rw [hrest] at h
      subst h
      exact List.mem_cons_self _ _

/-! ### Structure of the aggregation output -/

theorem presentKey_eq_some {r : Row} {s : List Char} {m : Date}
    (h : presentKey r = some (s, m)) :
    r.siteId = some s ∧ r.monthStart = some m := by
  unfold presentKey at h
  rcases hsi : r.siteId with _ | s0
  · rcases hms : r.monthStart with _ | m0 <;> rw [hsi, hms] at h <;> cases h
  · rcases hms : r.monthStart with _ | m0
    · rw [hsi, hms] at h
      cases h
    · rw [hsi, hms] at h
      simp only [Option.some_inj, Prod.mk.injEq] at h
      rw [h.1, h.2]
      exact ⟨rfl, rfl⟩

theorem rowLE_same_key {s : List Char} {m : Date} {r1 r2 : Row}
    (h1 : presentKey r1 = some (s, m)) (h2 : presentKey r2 = some (s, m))
    (hle : rowLE r1 r2) : optLEb dateLEb r1.dateClean r2.dateClean = true := by
  obtain ⟨hs1, hm1⟩ := presentKey_eq_some h1
  obtain ⟨hs2, hm2⟩ := presentKey_eq_some h2
  have hsk : siteKey r1 = siteKey r2 := by
    unfold siteKey
    rw [hs1, hs2]
  have hmk : r1.monthStart = r2.monthStart := by
    rw [hm1, hm2]
  unfold rowLE rowLEb lexStep at hle
  rw [if_pos hsk, if_pos hmk] at hle
  exact hle

theorem sorted_group_last_date {s : List Char} {m : Date} :
    ∀ (g : List Row), List.Sorted rowLE g →
      (∀ r ∈ g, presentKey r = some (s, m)) →
      ∀ d, lastSome (g.map Row.dateClean) = some d →
        (∃ r ∈ g, r.dateClean = some d) ∧
        (∀ r ∈ g, ∀ d2, r.dateClean = some d2 → dateLEb d2 d = true) := by
  intro g
  induction g with
  | nil =>
    intro _ _ d h
    cases h
  | cons r0 rest ih =>
    intro hsorted hkeys d h
    rw [List.map_cons, lastSome] at h
    have hsorted2 : List.Sorted rowLE rest := hsorted.of_cons
    have hkeys2 : ∀ r ∈ rest, presentKey r = some (s, m) :=
      fun r hr => hkeys r (List.mem_cons_of_mem r0 hr)
    cases hrest : lastSome (rest.map Row.dateClean) with
    | some v =>
      rw [hrest] at h
      have hvd : v = d := Option.some_inj.mp h
      subst hvd
      obtain ⟨hmem, hmax⟩ := ih hsorted2 hkeys2 v hrest
      obtain ⟨rw0, hrw0, hrwd⟩ := hmem
      refine ⟨⟨rw0, List.mem_cons_of_mem r0 hrw0, hrwd⟩, ?_⟩
      intro r hr d2 hd2
      rcases List.mem_cons.mp hr with rfl | hr
      · have hle := List.rel_of_sorted_cons hsorted rw0 hrw0
        have hdl := rowLE_same_key (hkeys r (List.mem_cons_self r rest))
          (hkeys2 rw0 hrw0) hle
        rw [hd2, hrwd] at hdl
        exact hdl
      · exact hmax r hr d2 hd2
    | none =>
      rw [hrest] at h
      refine ⟨⟨r0, List.mem_cons_self r0 rest, h⟩, ?_⟩
      intro r hr d2 hd2
      rcases List.mem_cons.mp hr with rfl | hr
      · rw [hd2] at h
        injection h with h
        subst h
        exact dateLEb_refl d2
      · have hall := (lastSome_eq_none_iff _).mp hrest
        have hnone := hall r.dateClean (List.mem_map.mpr ⟨r, hr, rfl⟩)
        rw [hd2] at hnone
        cases hnone

theorem presentKey_aggRow (g : List Row) (k : List Char × Date) :
    presentKey (aggRow g k) = some k := by
  rcases k with ⟨s, m⟩
  rfl

theorem countP_decide_le_one {α : Type} [DecidableEq α] :
    ∀ {l : List α}, l.Nodup → ∀ k : α,
      l.countP (fun x => decide (x = k)) ≤ 1 := by
  intro l
  induction l with
  | nil => intro _ k; simp
  | cons a t ih =>
    intro h k
    rw [List.countP_cons]
    by_cases hak : a = k
    · subst hak
      have hz : t.countP (fun x => decide (x = a)) = 0 := by
        rw [List.countP_eq_zero]
        intro x hx
        simp only [decide_eq_true_eq]
        intro he
        subst he
        exact (List.nodup_cons.mp h).1 hx
      simp [hz]
    · have hle := ih (List.nodup_cons.mp h).2 k
      simp [hak]
      omega

theorem countP_decide_eq_one {α : Type} [DecidableEq α] :
    ∀ {l : List α}, l.Nodup → ∀ {k : α}, k ∈ l →
      l.countP (fun x => decide (x = k)) = 1 := by
  intro l
  induction l with
  | nil => intro _ k hk; cases hk
  | cons a t ih =>
    intro h k hk
    rw [List.countP_cons]
    by_cases hak : a = k
    · subst hak
      have hz : t.countP (fun x => decide (x = a)) = 0 := by
        rw [List.countP_eq_zero]
        intro x hx
        simp only [decide_eq_true_eq]
        intro he
        subst he
        exact (List.nodup_cons.mp h).1 hx
      simp [hz]
    · rcases List.mem_cons.mp hk with rfl | hk
      · exact absurd rfl hak
      · have hone := ih (List.nodup_cons.mp h).2 hk
        simp [hak]
        omega

theorem monthly_last_count (rows : List Row) (k : List Char × Date) :
    (monthly_last rows).countP (fun r => decide (presentKey r = some k)) =
      (dedupFirst ((sortRows rows).filterMap presentKey)).countP
        (fun k2 => decide (k2 = k)) := by
  unfold monthly_last
  rw [List.countP_map]
  apply List.countP_congr
  intro k2 _
  simp [Function.comp, presentKey_aggRow]

theorem mem_sortRows {rows : List Row} {r : Row} : r ∈ sortRows rows ↔ r ∈ rows :=
  (List.perm_insertionSort rowLE rows).mem_iff

theorem mem_groupOf {sorted : List Row} {k : List Char × Date} {r : Row} :
    r ∈ groupOf sorted k ↔ r ∈ sorted ∧ presentKey r = some k := by
  unfold groupOf
  rw [List.mem_filter]
  simp

theorem groupOf_sorted (rows : List Row) (k : List Char × Date) :
    List.Sorted rowLE (groupOf (sortRows rows) k) :=
  List.Pairwise.sublist (List.filter_sublist _) (List.sorted_insertionSort rowLE rows)

theorem mem_monthly_last {rows : List Row} {r_out : Row} {s : List Char} {m : Date}
    (hr : r_out ∈ monthly_last rows) (hkey : presentKey r_out = some (s, m)) :
    r_out = aggRow (groupOf (sortRows rows) (s, m)) (s, m) ∧
      (s, m) ∈ (sortRows rows).filterMap presentKey := by
  unfold monthly_last at hr
  obtain ⟨k, hk, hagg⟩ := List.mem_map.mp hr
  have hks : some k = some (s, m) := by
    rw [← presentKey_aggRow (groupOf (sortRows rows) k) k, hagg, hkey]
  have hkk : k = (s, m) := Option.some_inj.mp hks
  subst hkk
  exact ⟨hagg.symm, (mem_dedupFirst _ _).mp hk⟩

/-! ## Claim C6: at most one output row per key, maximum date when all
dates are present -/

/-- C6: the monthly aggregation emits at most one row per distinct
(site, month) key, and whenever every row of a group has a present
sample date, the emitted row of that group carries the maximum sample date
of the group. -/
theorem c6_monthly_agg (rows : List Row) (s : List Char) (m : Date) :
    (monthly_last rows).countP (fun r => decide (presentKey r = some (s, m))) ≤ 1 ∧
      (∀ r_out ∈ monthly_last rows, presentKey r_out = some (s, m) →
        (∀ r ∈ rows, presentKey r = some (s, m) → r.dateClean.isSome = true) →
        ∃ d, r_out.dateClean = some d ∧
          (∃ r ∈ rows, presentKey r = some (s, m) ∧ r.dateClean = some d) ∧
          (∀ r ∈ rows, presentKey r = some (s, m) →
            ∀ d2, r.dateClean = some d2 → dateLEb d2 d = true)) := by
  constructor
  · rw [monthly_last_count]
    exact countP_decide_le_one (dedupFirst_nodup _) (s, m)
  · intro r_out hr_out hkey hall
    obtain ⟨hout, hk2⟩ := mem_monthly_last hr_out hkey
    obtain ⟨r1, hr1s, hr1k⟩ := List.mem_filterMap.mp hk2
    have hr1g : r1 ∈ groupOf (sortRows rows) (s, m) := mem_groupOf.mpr ⟨hr1s, hr1k⟩
    have hgkeys : ∀ r ∈ groupOf (sortRows rows) (s, m), presentKey r = some (s, m) :=
      fun r hr => (mem_groupOf.mp hr).2
    have hlast : lastSome ((groupOf (sortRows rows) (s, m)).map Row.dateClean) ≠ none := by
      intro hn
      have hall2 := (lastSome_eq_none_iff _).mp hn
      have hnone := hall2 r1.dateClean (List.mem_map.mpr ⟨r1, hr1g, rfl⟩)
      have hs1 := hall r1 (mem_sortRows.mp hr1s) hr1k
      rw [hnone] at hs1
      cases hs1
    cases hd : lastSome ((groupOf (sortRows rows) (s, m)).map Row.dateClean) with
    | none => exact absurd hd hlast
    | some d =>
      obtain ⟨hmem, hmax⟩ := sorted_group_last_date _ (groupOf_sorted rows (s, m))
        hgkeys d hd
      refine ⟨d, ?_, ?_, ?_⟩
      · rw [hout]
        exact hd
      · obtain ⟨r2, hr2g, hr2d⟩ := hmem
        obtain ⟨hr2s, hr2k⟩ := mem_groupOf.mp hr2g
        exact ⟨r2, mem_sortRows.mp hr2s, hr2k, hr2d⟩
      · intro r hr hkr d2 hd2
        exact hmax r (mem_groupOf.mpr ⟨mem_sortRows.mpr hr, hkr⟩) d2 hd2

/-- C6 witness: a concrete two-row input with all dates present, checked at
the emitted row of site A, month 2024-01. -/
theorem c6_witness :
    ∃ d, (⟨some "A".toList, some ⟨2024, 1, 1⟩, some ⟨2024, 1, 20⟩,
        some (7 : ℚ)⟩ : Row).dateClean = some d ∧
      (∃ r ∈ [(⟨some "A".toList, some ⟨2024, 1, 1⟩, some ⟨2024, 1, 5⟩,
            some (3 : ℚ)⟩ : Row),
          ⟨some "A".toList, some ⟨2024, 1, 1⟩, some ⟨2024, 1, 20⟩, some 7⟩],
        presentKey r = some ("A".toList, ⟨2024, 1, 1⟩) ∧ r.dateClean = some d) ∧
      (∀ r ∈ [(⟨some "A".toList, some ⟨2024, 1, 1⟩, some ⟨2024, 1, 5⟩,
            some (3 : ℚ)⟩ : Row),
          ⟨some "A".toList, some ⟨2024, 1, 1⟩, some ⟨2024, 1, 20⟩, some 7⟩],
        presentKey r = some ("A".toList, ⟨2024, 1, 1⟩) →
          ∀ d2, r.dateClean = some d2 → dateLEb d2 d = true) := by
  refine (c6_monthly_agg
    [⟨some "A".toList, some ⟨2024, 1, 1⟩, some ⟨2024, 1, 5⟩, some 3⟩,
     ⟨some "A".toList, some ⟨2024, 1, 1⟩, some ⟨2024, 1, 20⟩, some 7⟩]
    "A".toList ⟨2024, 1, 1⟩).2
    ⟨some "A".toList, some ⟨2024, 1, 1⟩, some ⟨2024, 1, 20⟩, some 7⟩
    (by decide) (by decide) (by decide)

/-! ## Claim C1: what the aggregation emits for each group -/

/-- C1 counterexample: in a group whose maximum-date row has an absent
result, the emitted row does not consist of the fields of any single input
row: the date comes from the later row and the result from the earlier one,
refuting the claim that the emitted sample date and result come from the
single winning row. -/
theorem c1_counterexample :
    monthly_last
        [⟨some "A".toList, some ⟨2024, 1, 1⟩, some ⟨2024, 1, 5⟩, some 7⟩,
         ⟨some "A".toList, some ⟨2024, 1, 1⟩, some ⟨2024, 1, 20⟩, none⟩] =
      [⟨some "A".toList, some ⟨2024, 1, 1⟩, some ⟨2024, 1, 20⟩, some 7⟩] ∧
      dateLEb ⟨2024, 1, 5⟩ ⟨2024, 1, 20⟩ = true ∧
      ¬ ∃ r ∈ [(⟨some "A".toList, some ⟨2024, 1, 1⟩, some ⟨2024, 1, 5⟩,
          some (7 : ℚ)⟩ : Row),
          ⟨some "A".toList, some ⟨2024, 1, 1⟩, some ⟨2024, 1, 20⟩, none⟩],
        (⟨some "A".toList, some ⟨2024, 1, 1⟩, some ⟨2024, 1, 20⟩,
          some (7 : ℚ)⟩ : Row).dateClean = r.dateClean ∧
        (⟨some "A".toList, some ⟨2024, 1, 1⟩, some ⟨2024, 1, 20⟩,
          some (7 : ℚ)⟩ : Row).result = r.result := by
  refine ⟨by decide, by decide, ?_⟩
  decide

/-- C1 (amended): for every (site, month) key present in the input, the
aggregation emits exactly one row for that key; its result is the last
present result of the date-sorted group, taken independently of the column
the sample date comes from, and the emitted result is absent exactly when
every result in the group is absent, so an all-absent group is still emitted
rather than dropped. -/
theorem c1_group_emission (rows : List Row) (s : List Char) (m : Date)
    (hk : (s, m) ∈ rows.filterMap presentKey) :
    (monthly_last rows).countP (fun r => decide (presentKey r = some (s, m))) = 1 ∧
      ∀ r_out ∈ monthly_last rows, presentKey r_out = some (s, m) →
        r_out.result = lastSome ((groupOf (sortRows rows) (s, m)).map Row.result) ∧
        (r_out.result = none ↔
          ∀ r ∈ rows, presentKey r = some (s, m) → r.result = none) := by
  have hk2 : (s, m) ∈ (sortRows rows).filterMap presentKey := by
    obtain ⟨r, hr, hkr⟩ := List.mem_filterMap.mp hk
    exact List.mem_filterMap.mpr ⟨r, mem_sortRows.mpr hr, hkr⟩
  constructor
  · rw [monthly_last_count]
    exact countP_decide_eq_one (dedupFirst_nodup _) ((mem_dedupFirst _ _).mpr hk2)
  · intro r_out hr_out hkey
    obtain ⟨hout, _⟩ := mem_monthly_last hr_out hkey
    constructor
    · rw [hout]
      rfl
    · rw [hout]
      show lastSome ((groupOf (sortRows rows) (s, m)).map Row.result) = none ↔ _
      rw [lastSome_eq_none_iff]
      constructor
      · intro h r hr hkr
        exact h r.result
          (List.mem_map.mpr ⟨r, mem_groupOf.mpr ⟨mem_sortRows.mpr hr, hkr⟩, rfl⟩)
      · intro h o ho
        obtain ⟨r, hrg, rfl⟩ := List.mem_map.mp ho
        obtain ⟨hrs, hkr⟩ := mem_groupOf.mp hrg
        exact h r (mem_sortRows.mp hrs) hkr

/-- C1 witness: the amended statement instantiated at the concrete
counterexample input. -/
theorem c1_witness :
    (monthly_last
        [⟨some "A".toList, some ⟨2024, 1, 1⟩, some ⟨2024, 1, 5⟩, some 7⟩,
         ⟨some "A".toList, some ⟨2024, 1, 1⟩, some ⟨2024, 1, 20⟩, none⟩]).countP
      (fun r => decide (presentKey r = some ("A".toList, ⟨2024, 1, 1⟩))) = 1 := by
  exact (c1_group_emission
    [⟨some "A".toList, some ⟨2024, 1, 1⟩, some ⟨2024, 1, 5⟩, some 7⟩,
     ⟨some "A".toList, some ⟨2024, 1, 1⟩, some ⟨2024, 1, 20⟩, none⟩]
    "A".toList ⟨2024, 1, 1⟩ (by decide)).1

/-! ## Claim C7: month floor invariant and exclusion of dateless rows -/

theorem orderedInsert_forall_le {a : Row} {l : List Row}
    (h : ∀ x ∈ l, rowLE a x) : List.orderedInsert rowLE a l = a :: l := by
  cases l with
  | nil => rfl
  | cons b t =>
    unfold List.orderedInsert
    rw [if_pos (h b (List.mem_cons_self b t))]

theorem bool_false_not_true {b : Bool} (h : b = false) : ¬ b = true := by
  rw [h]
  exact Bool.false_ne_true

theorem filter_orderedInsert (p : Row → Bool) (a : Row) :
    ∀ (l : List Row), List.Sorted rowLE l →
      (List.orderedInsert rowLE a l).filter p =
        if p a then List.orderedInsert rowLE a (l.filter p) else l.filter p := by
  intro l
  induction l with
  | nil =>
    intro _
    rcases Bool.eq_false_or_eq_true (p a) with hpa | hpa
    · rw [if_pos hpa]
      simp [List.orderedInsert, List.filter, hpa]
    · rw [if_neg (bool_false_not_true hpa)]
      simp [List.orderedInsert, List.filter, hpa]
  | cons b t ih =>
    intro hsorted
    have hsorted2 : List.Sorted rowLE t := hsorted.of_cons
    by_cases hab : rowLE a b
    · rw [show List.orderedInsert rowLE a (b :: t) = a :: b :: t from by
        simp [List.orderedInsert, hab]]
      have hle : ∀ x ∈ (b :: t).filter p, rowLE a x := by
        intro x hx
        have hxbt := List.mem_of_mem_filter hx
        rcases List.mem_cons.mp hxbt with rfl | hx2
        · exact hab
        · exact rowLEb_trans a b x hab (List.rel_of_sorted_cons hsorted x hx2)
      rcases Bool.eq_false_or_eq_true (p a) with hpa | hpa
      · rw [if_pos hpa]
        rw [List.filter_cons, if_pos hpa]
        rw [orderedInsert_forall_le hle]
      · rw [if_neg (bool_false_not_true hpa)]
        rw [List.filter_cons, if_neg (bool_false_not_true hpa)]
    · rw [show List.orderedInsert rowLE a (b :: t) =
          b :: List.orderedInsert rowLE a t from by
        simp [List.orderedInsert, hab]]
      rw [List.filter_cons, List.filter_cons, ih hsorted2]
      rcases Bool.eq_false_or_eq_true (p b) with hpb | hpb
      · rw [if_pos hpb, if_pos hpb]
        rcases Bool.eq_false_or_eq_true (p a) with hpa | hpa
        · rw [if_pos hpa, if_pos hpa]
          rw [show List.orderedInsert rowLE a (b :: t.filter p) =
              b :: List.orderedInsert rowLE a (t.filter p) from by
            simp [List.orderedInsert, hab]]
        · rw [if_neg (bool_false_not_true hpa), if_neg (bool_false_not_true hpa)]
      · rw [if_neg (bool_false_not_true hpb), if_neg (bool_false_not_true hpb)]

theorem filter_insertionSort (p : Row → Bool) :
    ∀ rows : List Row,
      (List.insertionSort rowLE rows).filter p =
        List.insertionSort rowLE (rows.filter p) := by
  intro rows
  induction rows with
  | nil => rfl
  | cons a t ih =>
    rw [List.insertionSort]
    rw [filter_orderedInsert p a _ (List.sorted_insertionSort rowLE t)]
    rw [ih]
    rw [List.filter_cons]
    rcases Bool.eq_false_or_eq_true (p a) with hpa | hpa
    · rw [if_pos hpa, if_pos hpa]
      rfl
    · rw [if_neg (bool_false_not_true hpa), if_neg (bool_false_not_true hpa)]

theorem filterMap_filter_of_imp {α β : Type} (f : α → Option β) (p : α → Bool)
    (h : ∀ x, f x ≠ none → p x = true) :
    ∀ l : List α, (l.filter p).filterMap f = l.filterMap f := by
  intro l
  induction l with
  | nil => rfl
  | cons a t ih =>
    rw [List.filter_cons]
    rcases Bool.eq_false_or_eq_true (p a) with hpa | hpa
    · rw [if_pos hpa]
      rw [List.filterMap_cons, List.filterMap_cons, ih]
    · have hfa : f a = none := by
        by_contra hne
        rw [h a hne] at hpa
        cases hpa
      rw [if_neg (bool_false_not_true hpa)]
      rw [List.filterMap_cons, hfa, ih]

theorem filter_key_filter (sorted : List Row) (p : Row → Bool)
    (k : List Char × Date) (himp : ∀ r, presentKey r = some k → p r = true) :
    (sorted.filter p).filter (fun r => decide (presentKey r = some k)) =
      sorted.filter (fun r => decide (presentKey r = some k)) := by
  rw [List.filter_filter]
  apply List.filter_congr
  intro r _
  by_cases hk : presentKey r = some k
  · simp [hk, himp r hk]
  · simp [hk]

theorem monthly_last_filter_invariant (rows : List Row) (p : Row → Bool)
    (himp : ∀ r k, presentKey r = some k → p r = true) :
    monthly_last (rows.filter p) = monthly_last rows := by
  unfold monthly_last
  have hsort : sortRows (rows.filter p) = (sortRows rows).filter p := by
    unfold sortRows
    rw [filter_insertionSort]
  rw [hsort]
  have hkeys : ((sortRows rows).filter p).filterMap presentKey =
      (sortRows rows).filterMap presentKey :=
    filterMap_filter_of_imp presentKey p
      (fun r hne => by
        rcases hpk : presentKey r with _ | k
        · exact absurd hpk hne
        · exact himp r k hpk) _
  rw [hkeys]
  apply List.map_congr_left
  intro k _
  unfold groupOf
  rw [filter_key_filter (sortRows rows) p k (fun r h => himp r k h)]

/-- C7: in every row built by load_excel, MonthStart is the first calendar
day of the month of DateClean whenever DateClean is present, and missing
whenever DateClean is missing; the date-range filter passes only rows with a
present MonthStart and is unchanged by first discarding rows without one; and
the monthly aggregation itself ignores rows without a MonthStart (groupby
drops missing keys), so rows with no parseable date never reach the output. -/
theorem c7_month_floor_invariant :
    (∀ (strParse : List Char → Option Date) (cells : List RawRow),
      ∀ r ∈ load_rows strParse cells,
        (∀ d, r.dateClean = some d → r.monthStart = some ⟨d.year, d.month, 1⟩) ∧
        (r.dateClean = none → r.monthStart = none)) ∧
    (∀ (s e : Date) (rows : List Row),
      (∀ r ∈ dateFilter s e rows, r.monthStart.isSome = true) ∧
      dateFilter s e rows =
        dateFilter s e (rows.filter (fun r => r.monthStart.isSome))) ∧
    (∀ rows : List Row,
      monthly_last (rows.filter (fun r => r.monthStart.isSome)) =
        monthly_last rows) := by
  refine ⟨?_, ?_, ?_⟩
  · intro strParse cells r hr
    obtain ⟨rr, _, rfl⟩ := List.mem_map.mp hr
    constructor
    · intro d hd
      show (parse_date_any strParse rr.dateRaw).map monthFloorD = _
      rw [show parse_date_any strParse rr.dateRaw = some d from hd]
      rfl
    · intro hd
      show (parse_date_any strParse rr.dateRaw).map monthFloorD = none
      rw [show parse_date_any strParse rr.dateRaw = none from hd]
      rfl
  · intro s e rows
    constructor
    · intro r hr
      have hp := (List.mem_filter.mp hr).2
      rcases hm : r.monthStart with _ | m0
      · rw [hm] at hp
        cases hp
      · rfl
    · unfold dateFilter
      rw [List.filter_filter]
      apply List.filter_congr
      intro r _
      rcases hm : r.monthStart with _ | m0 <;> simp [hm]
  · intro rows
    apply monthly_last_filter_invariant
    intro r k hk
    rcases k with ⟨s2, m2⟩
    rw [(presentKey_eq_some hk).2]
    rfl

/-- C7 witness: a concrete loaded row from the serial date 44562 gets
MonthStart 2022-01-01, via the invariant. -/
theorem c7_witness :
    (load_row (fun _ => none)
        ⟨some "A".toList, Cell.num 44562, Cell.num 7⟩).monthStart =
      some ⟨2022, 1, 1⟩ := by
  have h := (c7_month_floor_invariant.1 (fun _ => none)
    [⟨some "A".toList, Cell.num 44562, Cell.num 7⟩]
    (load_row (fun _ => none) ⟨some "A".toList, Cell.num 44562, Cell.num 7⟩)
    (by simp [load_rows])).1 ⟨2022, 1, 1⟩ (by decide)
  simpa using h

/-! ## Claim C3: max-target lookup (src/app.py lines 327 to 343) -/

/-- Python float(x) on a string (the conversion at src/app.py line 332):
after stripping whitespace, an optional sign, then either digits, or digits
dot digits, or a dot flanked by digits on at least one side; anything else
raises (exponents, infinities and underscores are not modelled; no theorem
below depends on them). -/
def pyFloatStr (s0 : List Char) : Option ℚ :=
  let s := pyStrip s0
  let sr : List Char × List Char :=
    match s with
    | c :: rest => if c == '-' || c == '+' then ([c], rest) else ([], s)
    | [] => ([], [])
  let sgn : ℤ := if sr.1 = ['-'] then -1 else 1
  let d1 := (spanDigits sr.2).1
  let r2 := (spanDigits sr.2).2
  match r2 with
  | [] =>
    if d1.isEmpty then none else some (mkRat (sgn * (digitsVal d1 : ℤ)) 1)
  | c :: r3 =>
    if c == '.' then
      let d2 := (spanDigits r3).1
      let r4 := (spanDigits r3).2
      if r4.isEmpty && !(d1.isEmpty && d2.isEmpty) then
        some (mkRat (sgn * ((digitsVal d1 : ℤ) * (10 : ℤ) ^ d2.length +
          (digitsVal d2 : ℤ))) ((10 : ℕ) ^ d2.length))
      else none
    else none

/-- Python float(x) on a cell, as wrapped in try/except at src/app.py lines
331 to 343: numbers convert exactly, booleans give 0 or 1, None raises
(turned into no target line by the caller); float NaN converts to NaN, which
draws no meaningful target line and is modelled as absent. -/
def pyFloat : Cell → Option ℚ
  | Cell.null => none
  | Cell.nan => none
  | Cell.num q => some q
  | Cell.bool b => some (if b then 1 else 0)
  | Cell.str s => pyFloatStr s

/-- The max-target lookup of src/app.py lines 329 to 343: keep the target
rows whose Parameter, as a string, equals the selected parameter exactly;
take the first such row, if any, and convert its MaxTarget with float; no
match or a failed conversion draws no target line. -/
def targets_lookup (tdf : List (List Char × Cell)) (p : List Char) : Option ℚ :=
  match tdf.filter (fun r => decide (r.1 = p)) with
  | [] => none
  | r :: _ => pyFloat r.2

/-- Modelled from the spec: run of whitespace collapsed to one space, the
last step of clean_header in section 4.1 of the spec (this variant of the
source has no clean_header; the spec-side function exists only to state the
counterexamples of C3 and C8). -/
def collapseWSAux (prevSpace : Bool) : List Char → List Char
  | [] => []
  | c :: rest =>
    if isSpacePy c then
      if prevSpace then collapseWSAux true rest
      else ' ' :: collapseWSAux true rest
    else c :: collapseWSAux false rest

/-- Modelled from the spec: clean_header of section 4.1 (trim, strip one
leading equals sign, re-trim, collapse whitespace runs), absent from this
variant of the source. -/
def clean_header_spec (s : List Char) : List Char :=
  let t := pyStrip s
  let t2 : List Char :=
    match t with
    | '=' :: rest => pyStrip rest
    | _ => t
  collapseWSAux false t2

/-- Modelled from the spec: lookup_target of section 4.7 (normalize both the
query and every table parameter via clean_header then case-fold, return the
max_target of the first matching entry), absent from this variant of the
source; stated only to exhibit the C3 counterexample. -/
def lookup_target_spec (tdf : List (List Char × Cell)) (p : List Char) :
    Option ℚ :=
  match tdf.find? (fun r =>
      decide (lowerL (clean_header_spec r.1) = lowerL (clean_header_spec p))) with
  | none => none
  | some r => pyFloat r.2

/-- C3 counterexample: with the one-row table mapping pH to 8.5, the exact
lookup of the source returns the target for the exactly-spelled query but
absent for the upper-cased query, while the normalized lookup claimed by the
spec returns the target for both. -/
theorem c3_counterexample :
    targets_lookup [("pH".toList, Cell.num (mkRat 17 2))] "PH".toList = none ∧
      lookup_target_spec [("pH".toList, Cell.num (mkRat 17 2))] "PH".toList =
        some (mkRat 17 2) ∧
      targets_lookup [("pH".toList, Cell.num (mkRat 17 2))] "pH".toList =
        some (mkRat 17 2) := by
  refine ⟨by decide, by decide, by decide⟩

/-- C3 (amended): the target lookup of this source is exact, case- and
whitespace-sensitive: it returns the float-converted MaxTarget of the first
table row whose Parameter string equals the selected parameter verbatim, and
absent when no row matches exactly or the conversion fails. -/
theorem c3_exact_lookup (tdf : List (List Char × Cell)) (p : List Char) :
    targets_lookup tdf p =
      match tdf.find? (fun r => decide (r.1 = p)) with
      | none => none
      | some r => pyFloat r.2 := by
  induction tdf with
  | nil => rfl
  | cons r0 rest ih =>
    show (match (r0 :: rest).filter (fun r => decide (r.1 = p)) with
      | [] => none
      | r :: _ => pyFloat r.2) = _
    rw [List.filter_cons, List.find?_cons]
    rcases Bool.eq_false_or_eq_true (decide (r0.1 = p)) with h | h
    · rw [if_pos h, h]
    · rw [if_neg (bool_false_not_true h), h]
      exact ih

/-! ## Claim C8: column detection (src/app.py lines 31 to 36 and 114 to 120) -/

/-- The helper of src/app.py lines 31 to 36 (module name with a leading
underscore): the first candidate, in candidate order, that occurs verbatim
among the columns; there is no cleaning and no substring fallback in this
source. -/
def coalesce_cols (cols : List (List Char)) (cands : List (List Char)) :
    Option (List Char) :=
  cands.find? (fun c => decide (c ∈ cols))

/-- Modelled from the spec: detect_column of section 4.2 (first column whose
cleaned label equals a candidate, iterating candidates outer and columns
inner; else, with a fallback substring, the first column whose cleaned
case-folded label contains it), absent from this variant of the source;
stated only to exhibit the C8 counterexample. -/
def detect_column_spec (cols : List (List Char)) :
    List (List Char) → Option (List Char) → Option (List Char)
  | c :: cs, fb =>
    (match cols.find? (fun col => decide (clean_header_spec col = c)) with
     | some col => some col
     | none => detect_column_spec cols cs fb)
  | [], some fb =>
    cols.find? (fun col => containsSeq (lowerL fb) (lowerL (clean_header_spec col)))
  | [], none => none

/-- C8 counterexample: with the single column " Site ID" (stray leading
space) and the single exact candidate "Site ID", the cleaned column label
equals the candidate, so the claimed detection returns the column, but the
source compares verbatim and returns absent. -/
theorem c8_counterexample :
    coalesce_cols [" Site ID".toList] ["Site ID".toList] = none ∧
      clean_header_spec " Site ID".toList = "Site ID".toList ∧
      detect_column_spec [" Site ID".toList] ["Site ID".toList] none =
        some " Site ID".toList := by
  refine ⟨by decide, by decide, by decide⟩

/-- C8 (amended): column detection compares candidate names verbatim against
the column labels, with no cleaning, no case folding and no substring
fallback; it returns some column name exactly when that name is the first
candidate, in candidate order, occurring among the columns (so candidate
priority order, not column source order, decides), and absent otherwise. -/
theorem c8_first_candidate (cols cands : List (List Char)) (c : List Char) :
    coalesce_cols cols cands = some c ↔
      c ∈ cols ∧ ∃ pre post, cands = pre ++ c :: post ∧ ∀ x ∈ pre, x ∉ cols := by
  induction cands with
  | nil =>
    unfold coalesce_cols
    simp only [List.find?_nil]
    constructor
    · intro h
      cases h
    · rintro ⟨_, pre, post, heq, _⟩
      cases pre <;> cases heq
  | cons a cs ih =>
    unfold coalesce_cols
    rw [List.find?_cons]
    rcases Bool.eq_false_or_eq_true (decide (a ∈ cols)) with h | h
    · rw [h]
      constructor
      · intro he
        have hac : a = c := Option.some_inj.mp he
        subst hac
        exact ⟨of_decide_eq_true h, [], cs, rfl, fun x hx => absurd hx (List.not_mem_nil x)⟩
      · rintro ⟨hc, pre, post, heq, hpre⟩
        cases pre with
        | nil =>
          injection heq with h1 _
          rw [h1]
        | cons p ps =>
          injection heq with h1 _
          subst h1
          exact absurd (of_decide_eq_true h) (hpre a (List.mem_cons_self a ps))
    · rw [h]
      show coalesce_cols cols cs = some c ↔ _
      rw [ih]
      constructor
      · rintro ⟨hc, pre, post, heq, hpre⟩
        refine ⟨hc, a :: pre, post, by rw [heq, List.cons_append], ?_⟩
        intro x hx
        rcases List.mem_cons.mp hx with rfl | hx
        · intro hmem
          rw [decide_eq_true hmem] at h
          cases h
        · exact hpre x hx
      · rintro ⟨hc, pre, post, heq, hpre⟩
        cases pre with
        | nil =>
          injection heq with h1 _
          subst h1
          rw [decide_eq_true hc] at h
          cases h
        | cons p ps =>
          injection heq with h1 h2
          subst h1
          exact ⟨hc, ps, post, h2, fun x hx => hpre x (List.mem_cons_of_mem a hx)⟩

/-- C8 witness: the first candidate wins even when a later candidate matches
an earlier column: with columns Site then Site ID and candidates Site ID then
Site, detection returns Site ID. -/
theorem c8_witness :
    coalesce_cols ["Site".toList, "Site ID".toList]
      ["Site ID".toList, "Site".toList] = some "Site ID".toList := by
  exact (c8_first_candidate _ _ _).mpr
    ⟨by decide, [], ["Site".toList], rfl, fun x hx => absurd hx (List.not_mem_nil x)⟩

/-! ## Claim C10: duplicate column handling (src/app.py lines 110 to 112,
185 to 186, 269 to 295) -/

/-- Keep-first column deduplication on labelled columns, each label carrying
its data: data.loc with the negation of Index(columns).duplicated()
(src/app.py lines 112, 186 and 270) keeps, for each label, exactly the
first column bearing it. -/
def dropDupColsAux {α : Type} (seen : List (List Char)) :
    List (List Char × α) → List (List Char × α)
  | [] => []
  | c :: t =>
    if c.1 ∈ seen then dropDupColsAux seen t
    else c :: dropDupColsAux (c.1 :: seen) t

/-- The duplicate-column drop of src/app.py lines 112, 186 and 270. -/
def dropDupCols {α : Type} (tbl : List (List Char × α)) : List (List Char × α) :=
  dropDupColsAux [] tbl

/-- Decimal digit characters of a positive natural number, most significant
first, with explicit fuel (any fuel at least n suffices). -/
def natStrAux : ℕ → ℕ → List Char
  | 0, _ => []
  | fuel + 1, n =>
    if n = 0 then []
    else natStrAux fuel (n / 10) ++ [Char.ofNat (48 + n % 10)]

/-- Decimal digit characters of a natural number, most significant first,
as produced by an f-string. -/
def natStr (n : ℕ) : List Char :=
  if n = 0 then ['0'] else natStrAux n n

/-- Candidate names tried by the while loop of src/app.py lines 288 to 292:
base, then base with a double-underscore suffix and a counter from 2 up. -/
def candName (base : List Char) (i : ℕ) : List Char :=
  base ++ '_' :: '_' :: natStr i

/-- The while loop of src/app.py lines 288 to 292, with explicit fuel: try
base__i, base__(i+1) and so on until an unused name appears.  The loop
always terminates because the candidates are pairwise distinct and seen is
finite; the fuel seen.length + 1 suffices, and the fuel-exhausted branch is
proved unreachable below. -/
def freshAux (seen : List (List Char)) (base : List Char) : ℕ → ℕ → List Char
  | 0, i => candName base i
  | fuel + 1, i =>
    if candName base i ∈ seen then freshAux seen base fuel (i + 1)
    else candName base i

/-- One column name made unique against the set of names already taken
(src/app.py lines 286 to 293): the name itself when unused, otherwise the
first base__i, i from 2 up, that is unused. -/
def freshName (seen : List (List Char)) (base : List Char) : List Char :=
  if base ∈ seen then freshAux seen base (seen.length + 1) 2 else base

/-- The uniquification loop over all columns (src/app.py lines 284 to 295),
threading the set of names taken so far. -/
def uniquifyAux (seen : List (List Char)) : List (List Char) → List (List Char)
  | [] => []
  | c :: cs => freshName seen c :: uniquifyAux (freshName seen c :: seen) cs

/-- Column-name uniquification of src/app.py lines 284 to 295. -/
def uniquify (cols : List (List Char)) : List (List Char) := uniquifyAux [] cols

theorem charOfDigit_toNat {d : ℕ} (h : d < 10) :
    (Char.ofNat (48 + d)).toNat = 48 + d := by
  interval_cases d <;> decide

theorem natStrAux_eq_digits :
    ∀ (fuel n : ℕ), n ≤ fuel →
      natStrAux fuel n = (Nat.digits 10 n).reverse.map (fun d => Char.ofNat (48 + d)) := by
  intro fuel
  induction fuel with
  | zero =>
    intro n h
    interval_cases n
    simp [natStrAux]
  | succ f ih =>
    intro n h
    by_cases hn : n = 0
    · subst hn
      simp [natStrAux]
    · rw [show natStrAux (f + 1) n = natStrAux f (n / 10) ++ [Char.ofNat (48 + n % 10)] from
        by simp [natStrAux, hn]]
      rw [ih (n / 10) (by
        have := Nat.div_lt_self (Nat.pos_of_ne_zero hn) (by norm_num : 1 < 10)
        omega)]
      rw [Nat.digits_def' (by norm_num : (1 : ℕ) < 10) (Nat.pos_of_ne_zero hn)]
      simp

theorem natStr_inj {i j : ℕ} (hi : i ≠ 0) (hj : j ≠ 0) (h : natStr i = natStr j) :
    i = j := by
  unfold natStr at h
  rw [if_neg hi, if_neg hj, natStrAux_eq_digits i i le_rfl,
    natStrAux_eq_digits j j le_rfl] at h
  have h3 := congrArg (List.map Char.toNat) h
  rw [List.map_map, List.map_map] at h3
  have hi : (Nat.digits 10 i).reverse.map (Char.toNat ∘ fun d => Char.ofNat (48 + d)) =
      (Nat.digits 10 i).reverse.map (fun d => 48 + d) :=
    List.map_congr_left (fun d hd =>
      charOfDigit_toNat (Nat.digits_lt_base (by norm_num) (List.mem_reverse.mp hd)))
  have hj : (Nat.digits 10 j).reverse.map (Char.toNat ∘ fun d => Char.ofNat (48 + d)) =
      (Nat.digits 10 j).reverse.map (fun d => 48 + d) :=
    List.map_congr_left (fun d hd =>
      charOfDigit_toNat (Nat.digits_lt_base (by norm_num) (List.mem_reverse.mp hd)))
  rw [hi, hj] at h3
  have h4 : (Nat.digits 10 i).reverse = (Nat.digits 10 j).reverse := by
    have hinj : Function.Injective (fun d : ℕ => 48 + d) :=
      fun a b hab => Nat.add_left_cancel hab
    exact (List.map_injective_iff.mpr hinj) h3
  have h5 : Nat.digits 10 i = Nat.digits 10 j := List.reverse_injective h4
  calc i = Nat.ofDigits 10 (Nat.digits 10 i) := (Nat.ofDigits_digits 10 i).symm
    _ = Nat.ofDigits 10 (Nat.digits 10 j) := by rw [h5]
    _ = j := Nat.ofDigits_digits 10 j

theorem candName_inj {base : List Char} {i j : ℕ} (hi : i ≠ 0) (hj : j ≠ 0)
    (h : candName base i = candName base j) : i = j := by
  unfold candName at h
  have h2 := List.append_cancel_left h
  injection h2 with _ h2
  injection h2 with _ h2
  exact natStr_inj hi hj h2

theorem freshAux_not_mem (seen : List (List Char)) (base : List Char) :
    ∀ (fuel i : ℕ),
      (∃ j ∈ List.range' i fuel, candName base j ∉ seen) →
      freshAux seen base fuel i ∉ seen := by
  intro fuel
  induction fuel with
  | zero =>
    intro i h
    obtain ⟨j, hj, _⟩ := h
    simp [List.range'] at hj
  | succ f ih =>
    intro i h
    unfold freshAux
    by_cases hc : candName base i ∈ seen
    · rw [if_pos hc]
      apply ih
      obtain ⟨j, hj, hjn⟩ := h
      have hji : j ≠ i := by
        intro he
        subst he
        exact hjn hc
      have hjr := List.mem_range'_1.mp hj
      exact ⟨j, List.mem_range'_1.mpr ⟨by omega, by omega⟩, hjn⟩
    · rw [if_neg hc]
      exact hc

theorem exists_fresh_index (seen : List (List Char)) (base : List Char) :
    ∃ j ∈ List.range' 2 (seen.length + 1), candName base j ∉ seen := by
  by_contra hall
  push_neg at hall
  have hsub : (List.range' 2 (seen.length + 1)).map (candName base) ⊆ seen := by
    intro x hx
    obtain ⟨j, hj, rfl⟩ := List.mem_map.mp hx
    exact hall j hj
  have hnodup : ((List.range' 2 (seen.length + 1)).map (candName base)).Nodup := by
    refine List.Nodup.map_on ?_ (List.nodup_range' _ _)
    intro i hi j hj he
    have h2i := (List.mem_range'_1.mp hi).1
    have h2j := (List.mem_range'_1.mp hj).1
    exact candName_inj (by omega) (by omega) he
  have hlen := (List.subperm_of_subset hnodup hsub).length_le
  simp at hlen

theorem freshName_not_mem (seen : List (List Char)) (base : List Char) :
    freshName seen base ∉ seen := by
  unfold freshName
  by_cases hb : base ∈ seen
  · rw [if_pos hb]
    exact freshAux_not_mem seen base _ 2 (exists_fresh_index seen base)
  · rw [if_neg hb]
    exact hb

theorem freshAux_shape (seen : List (List Char)) (base : List Char) :
    ∀ (fuel i : ℕ), ∃ j, i ≤ j ∧ freshAux seen base fuel i = candName base j := by
  intro fuel
  induction fuel with
  | zero => intro i; exact ⟨i, le_refl i, rfl⟩
  | succ f ih =>
    intro i
    unfold freshAux
    by_cases hc : candName base i ∈ seen
    · rw [if_pos hc]
      obtain ⟨j, hj, he⟩ := ih (i + 1)
      exact ⟨j, by omega, he⟩
    · rw [if_neg hc]
      exact ⟨i, le_refl i, rfl⟩

theorem freshName_shape (seen : List (List Char)) (base : List Char) :
    freshName seen base = base ∨
      ∃ j, 2 ≤ j ∧ freshName seen base = candName base j := by
  unfold freshName
  by_cases hb : base ∈ seen
  · rw [if_pos hb]
    obtain ⟨j, hj, he⟩ := freshAux_shape seen base (seen.length + 1) 2
    exact Or.inr ⟨j, hj, he⟩
  · rw [if_neg hb]
    exact Or.inl rfl

theorem uniquifyAux_spec (cols : List (List Char)) :
    ∀ seen, (uniquifyAux seen cols).Nodup ∧
      (∀ x ∈ uniquifyAux seen cols, x ∉ seen) ∧
      List.Forall₂ (fun b out => out = b ∨ ∃ j, 2 ≤ j ∧ out = candName b j)
        cols (uniquifyAux seen cols) := by
  induction cols with
  | nil => intro seen; exact ⟨List.nodup_nil, fun x hx => absurd hx (List.not_mem_nil x),
      List.Forall₂.nil⟩
  | cons c cs ih =>
    intro seen
    obtain ⟨hnd, hnm, hsh⟩ := ih (freshName seen c :: seen)
    refine ⟨?_, ?_, ?_⟩
    · refine List.nodup_cons.mpr ⟨?_, hnd⟩
      intro hmem
      exact hnm _ hmem (List.mem_cons_self _ _)
    · intro x hx
      rcases List.mem_cons.mp hx with rfl | hx'
      · exact freshName_not_mem seen c
      · intro hxs
        exact hnm x hx' (List.mem_cons_of_mem _ hxs)
    · exact List.Forall₂.cons (freshName_shape seen c) hsh

theorem mem_dropDupColsAux {α : Type} (p : List Char × α) :
    ∀ (tbl : List (List Char × α)) (seen : List (List Char)),
      p ∈ dropDupColsAux seen tbl ↔
        p.1 ∉ seen ∧ tbl.find? (fun q => decide (q.1 = p.1)) = some p := by
  intro tbl
  induction tbl with
  | nil => intro seen; simp [dropDupColsAux]
  | cons c t ih =>
    intro seen
    by_cases hc : c.1 ∈ seen
    · rw [show dropDupColsAux seen (c :: t) = dropDupColsAux seen t from by
        simp [dropDupColsAux, hc]]
      rw [ih seen]
      by_cases he : c.1 = p.1
      · constructor
        · rintro ⟨hns, _⟩
          exact absurd (he ▸ hc) hns
        · rintro ⟨hns, _⟩
          exact absurd (he ▸ hc) hns
      · rw [List.find?_cons_of_neg _ (by simp [he])]
    · rw [show dropDupColsAux seen (c :: t) = c :: dropDupColsAux (c.1 :: seen) t from by
        simp [dropDupColsAux, hc]]
      constructor
      · intro hp
        rcases List.mem_cons.mp hp with rfl | hp'
        · exact ⟨hc, by rw [List.find?_cons_of_pos _ (by simp)]⟩
        · obtain ⟨hns, hfind⟩ := (ih (c.1 :: seen)).mp hp'
          have hne : c.1 ≠ p.1 := fun he => hns (he ▸ List.mem_cons_self _ _)
          refine ⟨fun hs => hns (List.mem_cons_of_mem _ hs), ?_⟩
          rw [List.find?_cons_of_neg _ (by simp [hne])]
          exact hfind
      · rintro ⟨hns, hfind⟩
        by_cases he : c.1 = p.1
        · rw [List.find?_cons_of_pos _ (by simp [he])] at hfind
          exact List.mem_cons.mpr (Or.inl (Option.some_inj.mp hfind).symm)
        · rw [List.find?_cons_of_neg _ (by simp [he])] at hfind
          refine List.mem_cons.mpr (Or.inr ((ih (c.1 :: seen)).mpr ⟨?_, hfind⟩))
          intro hmem
          rcases List.mem_cons.mp hmem with h1 | h1
          · exact he h1.symm
          · exact hns h1

theorem dropDupColsAux_sublist {α : Type} :
    ∀ (tbl : List (List Char × α)) (seen : List (List Char)),
      List.Sublist (dropDupColsAux seen tbl) tbl := by
  intro tbl
  induction tbl with
  | nil => intro seen; simp [dropDupColsAux]
  | cons c t ih =>
    intro seen
    by_cases hc : c.1 ∈ seen
    · rw [show dropDupColsAux seen (c :: t) = dropDupColsAux seen t from by
        simp [dropDupColsAux, hc]]
      exact (ih seen).cons c
    · rw [show dropDupColsAux seen (c :: t) = c :: dropDupColsAux (c.1 :: seen) t from by
        simp [dropDupColsAux, hc]]
      exact (ih (c.1 :: seen)).cons₂ c

theorem dropDupColsAux_labels_nodup {α : Type} :
    ∀ (tbl : List (List Char × α)) (seen : List (List Char)),
      ((dropDupColsAux seen tbl).map Prod.fst).Nodup ∧
      ∀ p ∈ dropDupColsAux seen tbl, p.1 ∉ seen := by
  intro tbl
  induction tbl with
  | nil =>
    intro seen
    exact ⟨by simp [dropDupColsAux], fun p hp => absurd hp (List.not_mem_nil p)⟩
  | cons c t ih =>
    intro seen
    by_cases hc : c.1 ∈ seen
    · rw [show dropDupColsAux seen (c :: t) = dropDupColsAux seen t from by
        simp [dropDupColsAux, hc]]
      exact ih seen
    · rw [show dropDupColsAux seen (c :: t) = c :: dropDupColsAux (c.1 :: seen) t from by
        simp [dropDupColsAux, hc]]
      obtain ⟨hnd, hnm⟩ := ih (c.1 :: seen)
      refine ⟨?_, ?_⟩
      · rw [List.map_cons]
        refine List.nodup_cons.mpr ⟨?_, hnd⟩
        intro hmem
        obtain ⟨p, hp, hpe⟩ := List.mem_map.mp hmem
        exact hnm p hp (hpe ▸ List.mem_cons_self _ _)
      · intro p hp
        rcases List.mem_cons.mp hp with rfl | hp'
        · exact hc
        · intro hs
          exact hnm p hp' (List.mem_cons_of_mem _ hs)

/-- Claim C10: after load, tables have pairwise-distinct column labels.  The
duplicate-column drop (src/app.py lines 112, 186 and 270) yields a table
whose labels are pairwise distinct, whose columns form a subsequence of the
input, and whose members are exactly the first input column of each label
(keep-first); the plotting-frame uniquification loop (lines 284 to 295)
yields pairwise-distinct names, one per input column in order, each equal to
its source name or to the source name with a double-underscore numeric
suffix with counter at least 2. -/
theorem c10_unique_columns {α : Type} (tbl : List (List Char × α))
    (cols : List (List Char)) :
    ((dropDupCols tbl).map Prod.fst).Nodup ∧
    List.Sublist (dropDupCols tbl) tbl ∧
    (∀ p : List Char × α,
      p ∈ dropDupCols tbl ↔ tbl.find? (fun q => decide (q.1 = p.1)) = some p) ∧
    (uniquify cols).Nodup ∧
    List.Forall₂ (fun b out => out = b ∨ ∃ j, 2 ≤ j ∧ out = candName b j)
      cols (uniquify cols) := by
  refine ⟨(dropDupColsAux_labels_nodup tbl []).1, dropDupColsAux_sublist tbl [], ?_,
    (uniquifyAux_spec cols []).1, (uniquifyAux_spec cols []).2.2⟩
  intro p
  rw [show dropDupCols tbl = dropDupColsAux [] tbl from rfl, mem_dropDupColsAux]
  simp

/-- Witness for C10 at a concrete duplicated table and column list: of two
columns both labelled A, only the first survives the drop, and uniquify sends
A, A to the distinct names A and A__2. -/
theorem c10_witness :
    ((['A'], (1 : ℕ)) ∈ dropDupCols [(['A'], (1 : ℕ)), (['A'], 2)] ∧
      (['A'], (2 : ℕ)) ∉ dropDupCols [(['A'], (1 : ℕ)), (['A'], 2)]) ∧
    uniquify [['A'], ['A']] = [['A'], ['A', '_', '_', '2']] := by
  have h := c10_unique_columns [(['A'], (1 : ℕ)), (['A'], 2)] [['A'], ['A']]
  refine ⟨⟨(h.2.2.1 _).mpr (by decide), fun hm => ?_⟩, by decide⟩
  have h2 := (h.2.2.1 _).mp hm
  exact absurd h2 (by decide)
